import Mathlib

/-!
Verification of the artvee-scraper core against its specification.

The development shallowly embeds the Python sources:

* `utils.py` (`ListIterator`) and `writer/command.py` (`Command`,
  `MacroCommand`) as an explicit-state transition system;
* `artvee_client.py` (`get_page_count`, `get_metadata`) over abstract
  HTTP responses;
* `writer/file_writer.py` (`WriteImageCommand`, `WriteMetadataCommand`)
  over a filesystem modelled as a partial map from paths to contents;
* `scraper.py` (`_worker_task`, `_invoke_listeners`) with listeners as
  functions that either return or raise.

Machine integers do not occur (Python integers are unbounded); fallible
operations return `Option` or `Except`, with `none` / `.error` standing
for a raised exception.
-/

namespace ArtveeVerify

/-! ## Sub-commands (writer/command.py, class Command)

A sub-command only promises a `bool` from each `execute()` / `revert()`
call.  A behaviour schedules the result of the n-th call of each method;
a command object carries its behaviour plus how many times each method
has been invoked on it, which is the only state the claims observe. -/

/-- Result schedule of one sub-command: `execRes n` is what its
`execute()` returns on the n-th call (0-indexed), `revRes n` what its
`revert()` returns on the n-th call. -/
structure CmdBehavior where
  execRes : Nat → Bool
  revRes : Nat → Bool

/-- One sub-command object: its behaviour plus call counters. -/
structure CmdState where
  behavior : CmdBehavior
  execCalls : Nat
  revCalls : Nat

/-- A sub-command object on which no method has been called yet. -/
def CmdState.ofBehavior (b : CmdBehavior) : CmdState := ⟨b, 0, 0⟩

/-- `cmd.execute()`: the scheduled result, and the object with the call
recorded. -/
def CmdState.execute (c : CmdState) : Bool × CmdState :=
  (c.behavior.execRes c.execCalls, { c with execCalls := c.execCalls + 1 })

/-- `cmd.revert()`: the scheduled result, and the object with the call
recorded. -/
def CmdState.revert (c : CmdState) : Bool × CmdState :=
  (c.behavior.revRes c.revCalls, { c with revCalls := c.revCalls + 1 })

/-- Result of the next `execute()` call on `c`. -/
def CmdState.execOk (c : CmdState) : Bool := c.execute.1

/-- The object after one more `execute()` call. -/
def CmdState.execNext (c : CmdState) : CmdState := c.execute.2

/-- Result of the next `revert()` call on `c`. -/
def CmdState.revOk (c : CmdState) : Bool := c.revert.1

/-- The object after one more `revert()` call. -/
def CmdState.revNext (c : CmdState) : CmdState := c.revert.2

/-! ## ListIterator (utils.py)

The Python constructor deep-copies `elements`; the copy is value
semantics here.  `next()` / `previous()` return `none` where the Python
methods raise `IndexError`. -/

/-- A bidirectional cursor over a snapshot of a list (`utils.py`,
`ListIterator`): `elements` is `self._elements`, `cursor` is
`self._cursor`. -/
structure ListIterator (α : Type) where
  elements : List α
  cursor : Nat
  deriving Repr

/-- `ListIterator(elements)` with the default starting index 0. -/
def ListIterator.ofList (l : List α) : ListIterator α := ⟨l, 0⟩

/-- `has_previous()`: `self._cursor != 0`. -/
def ListIterator.hasPrevious (it : ListIterator α) : Bool := it.cursor != 0

/-- `has_next()`: `self._cursor != len(self._elements)`. -/
def ListIterator.hasNext (it : ListIterator α) : Bool :=
  it.cursor != it.elements.length

/-- `next()`: returns the element under the cursor and advances; `none`
models the `IndexError` raised when the cursor is at or past the end. -/
def ListIterator.next (it : ListIterator α) : Option (α × ListIterator α) :=
  if h : it.cursor < it.elements.length then
    some (it.elements.get ⟨it.cursor, h⟩, { it with cursor := it.cursor + 1 })
  else none

/-- `previous()`: steps the cursor back and returns that element; `none`
models the `IndexError` raised when the cursor is at 0 (or the element
access is out of range). -/
def ListIterator.previous (it : ListIterator α) : Option (α × ListIterator α) :=
  if it.cursor = 0 then none
  else if h : it.cursor - 1 < it.elements.length then
    some (it.elements.get ⟨it.cursor - 1, h⟩, { it with cursor := it.cursor - 1 })
  else none

/-! ## MacroCommand (writer/command.py)

State of a `MacroCommand`: the live sub-command list `cmds`
(`self._cmds`) and the optional snapshot iterator `iter` (`self._iter`,
`None` until the first `execute()`).  Since a sub-command's `execute()`
/ `revert()` mutates the command object held in the iterator snapshot,
the loop writes the updated object back into the snapshot list. -/

structure MacroCommand where
  cmds : List CmdState
  iter : Option (ListIterator CmdState)

/-- `MacroCommand()`. -/
def MacroCommand.new : MacroCommand := ⟨[], none⟩

/-- `add(subcommand)`: append to the end of the traversal list. -/
def MacroCommand.add (m : MacroCommand) (c : CmdState) : MacroCommand :=
  { m with cmds := m.cmds ++ [c] }

/-- A fresh `MacroCommand` holding one as-yet-uncalled sub-command per
behaviour. -/
def MacroCommand.ofBehaviors (bs : List CmdBehavior) : MacroCommand :=
  ⟨bs.map CmdState.ofBehavior, none⟩

/-- The `while self._iter.has_next()` loop of `MacroCommand.execute()`:
take the sub-command under the cursor via `next()`, run its `execute()`
(writing the mutated object back into the snapshot); on a `False` result
step back with `previous()` and stop with `False`.  `none` models an
uncaught `IndexError`. -/
def execLoop (it : ListIterator CmdState) : Option (Bool × ListIterator CmdState) :=
  if it.hasNext then
    if h : it.cursor < it.elements.length then
      let r := (it.elements.get ⟨it.cursor, h⟩).execute
      let it₂ : ListIterator CmdState := ⟨it.elements.set it.cursor r.2, it.cursor + 1⟩
      if r.1 then execLoop it₂
      else (it₂.previous).map (fun p => (false, p.2))
    else none
  else some (true, it)
termination_by it.elements.length - it.cursor
decreasing_by simp [List.length_set]; omega

/-- The `while self._iter.has_previous()` loop of
`MacroCommand.revert()`: step back with `previous()`, run that
sub-command's `revert()`; on a `False` result step forward again with
`next()` and stop with `False`. -/
def revLoop (it : ListIterator CmdState) : Option (Bool × ListIterator CmdState) :=
  if it.hasPrevious then
    if h0 : it.cursor = 0 then none
    else if h : it.cursor - 1 < it.elements.length then
      let r := (it.elements.get ⟨it.cursor - 1, h⟩).revert
      let it₂ : ListIterator CmdState := ⟨it.elements.set (it.cursor - 1) r.2, it.cursor - 1⟩
      if r.1 then revLoop it₂
      else (it₂.next).map (fun p => (false, p.2))
    else none
  else some (true, it)
termination_by it.cursor
decreasing_by omega

/-- `MacroCommand.execute()`: on the first call install the snapshot
iterator (`ListIterator(self._cmds)`), then run the traversal loop. -/
def MacroCommand.execute (m : MacroCommand) : Option (Bool × MacroCommand) :=
  let it := match m.iter with
    | none => ListIterator.ofList m.cmds
    | some it => it
  (execLoop it).map (fun r => (r.1, ⟨m.cmds, some r.2⟩))

/-- `MacroCommand.revert()`: trivially `True` when `execute()` was never
called, otherwise walk the cursor backwards. -/
def MacroCommand.revert (m : MacroCommand) : Option (Bool × MacroCommand) :=
  match m.iter with
  | none => some (true, m)
  | some it => (revLoop it).map (fun r => (r.1, ⟨m.cmds, some r.2⟩))

/-! ### Loop step lemmas -/

lemma execLoop_done (es : List CmdState) :
    execLoop ⟨es, es.length⟩ = some (true, ⟨es, es.length⟩) := by
  rw [execLoop]
  simp [ListIterator.hasNext]

lemma execLoop_step (es : List CmdState) (c : Nat) (h : c < es.length) :
    execLoop ⟨es, c⟩ =
      (if (es.get ⟨c, h⟩).execOk then
        execLoop ⟨es.set c (es.get ⟨c, h⟩).execNext, c + 1⟩
      else some (false, ⟨es.set c (es.get ⟨c, h⟩).execNext, c⟩)) := by
  rw [execLoop]
  have hne : ListIterator.hasNext ⟨es, c⟩ = true := by
    simp [ListIterator.hasNext]
    omega
  rw [hne]
  simp only [if_true, dif_pos h]
  cases hok : ((es.get ⟨c, h⟩).execute).1 with
  | true =>
      simp only [List.get_eq_getElem] at hok
      simp [CmdState.execOk, CmdState.execNext, hok]
  | false =>
      simp only [CmdState.execOk, CmdState.execNext, hok, Bool.false_eq_true,
        if_false]
      simp [ListIterator.previous, List.length_set, h]

lemma revLoop_zero (es : List CmdState) :
    revLoop ⟨es, 0⟩ = some (true, ⟨es, 0⟩) := by
  rw [revLoop]
  simp [ListIterator.hasPrevious]

lemma revLoop_step (es : List CmdState) (c : Nat) (hc : 0 < c)
    (h : c - 1 < es.length) :
    revLoop ⟨es, c⟩ =
      (if (es.get ⟨c - 1, h⟩).revOk then
        revLoop ⟨es.set (c - 1) (es.get ⟨c - 1, h⟩).revNext, c - 1⟩
      else some (false, ⟨es.set (c - 1) (es.get ⟨c - 1, h⟩).revNext, c⟩)) := by
  rw [revLoop]
  have hne : ListIterator.hasPrevious ⟨es, c⟩ = true := by
    simp [ListIterator.hasPrevious]
    omega
  rw [hne]
  simp only [if_true]
  rw [dif_neg (by omega), dif_pos h]
  cases hok : ((es.get ⟨c - 1, h⟩).revert).1 with
  | true =>
      simp only [List.get_eq_getElem] at hok
      simp [CmdState.revOk, CmdState.revNext, hok]
  | false =>
      simp only [CmdState.revOk, CmdState.revNext, hok, Bool.false_eq_true,
        if_false]
      simp [ListIterator.next, List.length_set, h]
      omega

/-! ### List positioning helpers -/

lemma get_append_length (pre : List α) (t : α) (rest : List α)
    (h : pre.length < (pre ++ t :: rest).length) :
    (pre ++ t :: rest).get ⟨pre.length, h⟩ = t := by
  induction pre with
  | nil => rfl
  | cons a as ih => simpa using ih (by simp)

lemma set_append_length (pre : List α) (t x : α) (rest : List α) :
    (pre ++ t :: rest).set pre.length x = pre ++ x :: rest := by
  induction pre with
  | nil => rfl
  | cons a as ih => simp [ih]

/-! ### Traversal outcome lemmas

Every run of the execute / revert loop starts from a cursor that splits
the snapshot into an already-passed prefix and a part still to traverse;
these four lemmas compute the loop on each possible success / failure
pattern of the part being traversed. -/

/-- When every remaining sub-command's `execute()` reports success, the
loop executes each of them once and parks the cursor at the end. -/
lemma execLoop_success (todo : List CmdState) :
    ∀ done : List CmdState, (∀ t ∈ todo, t.execOk = true) →
    execLoop ⟨done ++ todo, done.length⟩ =
      some (true, ⟨done ++ todo.map CmdState.execNext, done.length + todo.length⟩) := by
  induction todo with
  | nil => intro done _; simpa using execLoop_done done
  | cons t ts ih =>
      intro done h
      have hlt : done.length < (done ++ t :: ts).length := by simp
      rw [execLoop_step _ _ hlt, get_append_length, h t (by simp),
        set_append_length]
      have heq : done ++ t.execNext :: ts = (done ++ [t.execNext]) ++ ts := by
        simp
      rw [if_pos rfl, heq]
      have hcur : done.length + 1 = (done ++ [t.execNext]).length := by simp
      rw [hcur, ih (done ++ [t.execNext]) (fun x hx => h x (by simp [hx]))]
      simp [ListIterator.mk.injEq]
      omega

/-- When the sub-commands before position `mid.length` (relative to the
cursor) succeed and the one after them fails, the loop executes exactly
those and the failing one, returns `false`, and leaves the cursor on the
failed sub-command; everything past the failure is untouched. -/
lemma execLoop_failure (mid : List CmdState) (t : CmdState) :
    ∀ done rest : List CmdState, (∀ x ∈ mid, x.execOk = true) → t.execOk = false →
    execLoop ⟨done ++ (mid ++ t :: rest), done.length⟩ =
      some (false,
        ⟨done ++ (mid.map CmdState.execNext ++ t.execNext :: rest),
          done.length + mid.length⟩) := by
  induction mid with
  | nil =>
      intro done rest _ ht
      have hlt : done.length < (done ++ t :: rest).length := by simp
      simp only [List.nil_append, List.map_nil, Nat.add_zero, List.length_nil]
      rw [execLoop_step _ _ hlt, get_append_length, ht, set_append_length]
      simp
  | cons m ms ih =>
      intro done rest h ht
      have hshape : done ++ ((m :: ms) ++ t :: rest) = done ++ m :: (ms ++ t :: rest) := by
        simp
      rw [hshape]
      have hlt : done.length < (done ++ m :: (ms ++ t :: rest)).length := by simp
      rw [execLoop_step _ _ hlt, get_append_length, h m (by simp),
        set_append_length]
      have hshape2 : done ++ m.execNext :: (ms ++ t :: rest) =
          (done ++ [m.execNext]) ++ (ms ++ t :: rest) := by simp
      have hcur : done.length + 1 = (done ++ [m.execNext]).length := by simp
      rw [if_pos rfl, hshape2, hcur,
        ih (done ++ [m.execNext]) rest (fun x hx => h x (by simp [hx])) ht]
      simp [ListIterator.mk.injEq]
      omega

/-- When every already-executed sub-command's `revert()` reports
success, the loop reverts each of them (right to left) and parks the
cursor at 0. -/
lemma revLoop_success (done : List CmdState) :
    ∀ todo : List CmdState, (∀ t ∈ done, t.revOk = true) →
    revLoop ⟨done ++ todo, done.length⟩ =
      some (true, ⟨done.map CmdState.revNext ++ todo, 0⟩) := by
  induction done using List.reverseRecOn with
  | nil => intro todo _; simpa using revLoop_zero todo
  | append_singleton ds a ih =>
      intro todo h
      have hshape : (ds ++ [a]) ++ todo = ds ++ a :: todo := by simp
      have hcur : (ds ++ [a]).length = ds.length + 1 := by simp
      have hlt : ds.length + 1 - 1 < (ds ++ a :: todo).length := by simp
      rw [hshape, hcur, revLoop_step _ _ (by omega) hlt]
      have hget : (ds ++ a :: todo).get ⟨ds.length + 1 - 1, hlt⟩ = a := by
        have hidx : ds.length + 1 - 1 = ds.length := by omega
        simp only [hidx]
        exact get_append_length ds a todo (by simp)
      rw [hget, h a (by simp)]
      have hset : (ds ++ a :: todo).set (ds.length + 1 - 1) a.revNext =
          ds ++ a.revNext :: todo := by
        have hidx : ds.length + 1 - 1 = ds.length := by omega
        rw [hidx, set_append_length]
      rw [if_pos rfl, hset]
      have hidx : ds.length + 1 - 1 = ds.length := by omega
      rw [hidx, ih (a.revNext :: todo) (fun x hx => h x (by simp [hx]))]
      simp

/-- When the sub-commands between the failing one and the cursor all
revert successfully and sub-command `t` then fails to revert, the loop
reverts exactly those and attempts `t`, returns `false`, and leaves the
cursor just past `t` (so a later retry starts at `t`). -/
lemma revLoop_failure (mid : List CmdState) (t : CmdState) :
    ∀ front todo : List CmdState, (∀ x ∈ mid, x.revOk = true) → t.revOk = false →
    revLoop ⟨front ++ t :: (mid ++ todo), front.length + 1 + mid.length⟩ =
      some (false,
        ⟨front ++ t.revNext :: (mid.map CmdState.revNext ++ todo),
          front.length + 1⟩) := by
  induction mid using List.reverseRecOn with
  | nil =>
      intro front todo _ ht
      simp only [List.nil_append, List.map_nil, Nat.add_zero, List.length_nil]
      have hlt : front.length + 1 - 1 < (front ++ t :: todo).length := by simp
      rw [revLoop_step _ _ (by omega) hlt]
      have hidx : front.length + 1 - 1 = front.length := by omega
      have hget : (front ++ t :: todo).get ⟨front.length + 1 - 1, hlt⟩ = t := by
        simp only [hidx]
        exact get_append_length front t todo (by simp)
      rw [hget, ht]
      simp only [hidx, set_append_length]
      simp
  | append_singleton ms a ih =>
      intro front todo h ht
      have hshape : front ++ t :: ((ms ++ [a]) ++ todo) =
          (front ++ t :: ms) ++ a :: todo := by simp
      have hcur : front.length + 1 + (ms ++ [a]).length =
          (front ++ t :: ms).length + 1 := by simp; omega
      rw [hshape, hcur]
      have hlt : (front ++ t :: ms).length + 1 - 1 <
          ((front ++ t :: ms) ++ a :: todo).length := by simp
      rw [revLoop_step _ _ (by omega) hlt]
      have hidx : (front ++ t :: ms).length + 1 - 1 = (front ++ t :: ms).length := by
        omega
      have hget : ((front ++ t :: ms) ++ a :: todo).get
          ⟨(front ++ t :: ms).length + 1 - 1, hlt⟩ = a := by
        simp only [hidx]
        exact get_append_length _ a todo (by simp)
      rw [hget, h a (by simp)]
      have hset : ((front ++ t :: ms) ++ a :: todo).set
          ((front ++ t :: ms).length + 1 - 1) a.revNext =
          front ++ t :: (ms ++ a.revNext :: todo) := by
        simp only [hidx, set_append_length]
        simp
      rw [if_pos rfl, hset]
      have hcur2 : (front ++ t :: ms).length + 1 - 1 = front.length + 1 + ms.length := by
        simp; omega
      rw [hcur2, ih front (a.revNext :: todo) (fun x hx => h x (by simp [hx])) ht]
      simp

/-! ### Call-count bookkeeping -/

lemma execCalls_execNext (c : CmdState) : c.execNext.execCalls = c.execCalls + 1 := rfl

lemma revCalls_execNext (c : CmdState) : c.execNext.revCalls = c.revCalls := rfl

lemma execCalls_revNext (c : CmdState) : c.revNext.execCalls = c.execCalls := rfl

lemma revCalls_revNext (c : CmdState) : c.revNext.revCalls = c.revCalls + 1 := rfl

lemma counts_ofBehavior (b : CmdBehavior) :
    (CmdState.ofBehavior b).execCalls = 0 ∧ (CmdState.ofBehavior b).revCalls = 0 :=
  ⟨rfl, rfl⟩

/-- Reading a numeric field of an element of `A ++ b :: C` when the
field is constant on each of the three segments. -/
lemma get_append_cons_count (f : CmdState → Nat) (u v w : Nat)
    (A : List CmdState) (b : CmdState) (C : List CmdState)
    (hA : ∀ x ∈ A, f x = u) (hb : f b = v) (hC : ∀ x ∈ C, f x = w)
    (i : Nat) (hi : i < (A ++ b :: C).length) :
    f ((A ++ b :: C).get ⟨i, hi⟩) =
      if i < A.length then u else if i = A.length then v else w := by
  rcases Nat.lt_trichotomy i A.length with h | h | h
  · rw [if_pos h]
    have hg : (A ++ b :: C).get ⟨i, hi⟩ = A.get ⟨i, h⟩ := by
      simp [List.getElem_append_left h]
    rw [hg]
    exact hA _ (A.get_mem _ _)
  · rw [if_neg (by omega), if_pos h]
    have hg : (A ++ b :: C).get ⟨i, hi⟩ = b := by
      subst h
      simp [List.getElem_append_right (Nat.le_refl A.length)]
    rw [hg, hb]
  · rw [if_neg (by omega), if_neg (by omega)]
    have hle : A.length ≤ i := by omega
    have hg : (A ++ b :: C).get ⟨i, hi⟩ = (b :: C).get ⟨i - A.length, by
        simp at hi ⊢; omega⟩ := by
      simp [List.getElem_append_right hle]
    rw [hg]
    have hpos : 0 < i - A.length := by omega
    have hg2 : (b :: C).get ⟨i - A.length, by simp at hi ⊢; omega⟩ =
        C.get ⟨i - A.length - 1, by simp at hi ⊢; omega⟩ := by
      rcases Nat.exists_eq_add_of_lt hpos with ⟨j, hj⟩
      rcases Nat.exists_eq_succ_of_ne_zero (Nat.pos_iff_ne_zero.1 hpos) with ⟨j, hj⟩
      simp [hj]
    rw [hg2]
    exact hC _ (C.get_mem _ _)

/-! ### Behaviour of a fresh MacroCommand execute -/

/-- Executing a fresh `MacroCommand` whose first `k` sub-commands report
success and whose `k`-th reports failure: the loop calls `execute()` on
sub-commands `0..k` exactly once each, returns `false`, and parks the
cursor on the failed sub-command `k`; sub-commands past `k` are never
touched. -/
lemma fresh_execute_first_fail (bs : List CmdBehavior) (k : Nat) (hk : k < bs.length)
    (hpre : ∀ i (hi : i < bs.length), i < k → (bs.get ⟨i, hi⟩).execRes 0 = true)
    (hfail : (bs.get ⟨k, hk⟩).execRes 0 = false) :
    (MacroCommand.ofBehaviors bs).execute =
      some (false, ⟨bs.map CmdState.ofBehavior,
        some ⟨((bs.map CmdState.ofBehavior).take k).map CmdState.execNext ++
          (((bs.map CmdState.ofBehavior).get ⟨k, by simpa using hk⟩).execNext ::
            (bs.map CmdState.ofBehavior).drop (k + 1)), k⟩⟩) := by
  have hkes : k < (bs.map CmdState.ofBehavior).length := by simpa using hk
  have hmid : ∀ x ∈ (bs.map CmdState.ofBehavior).take k, x.execOk = true := by
    intro x hx
    obtain ⟨i, hi, rfl⟩ := List.mem_iff_getElem.1 hx
    have hik : i < k := by simp at hi; omega
    have hibs : i < bs.length := by simp at hi; omega
    rw [List.getElem_take]
    simp only [List.getElem_map]
    have := hpre i hibs hik
    simpa [CmdState.execOk, CmdState.execute, CmdState.ofBehavior] using this
  have ht : ((bs.map CmdState.ofBehavior).get ⟨k, hkes⟩).execOk = false := by
    simp only [List.get_eq_getElem, List.getElem_map]
    have := hfail
    simpa [CmdState.execOk, CmdState.execute, CmdState.ofBehavior] using this
  have hrun := execLoop_failure ((bs.map CmdState.ofBehavior).take k)
    ((bs.map CmdState.ofBehavior).get ⟨k, hkes⟩) []
    ((bs.map CmdState.ofBehavior).drop (k + 1)) hmid ht
  have hsplit : (bs.map CmdState.ofBehavior).take k ++
      ((bs.map CmdState.ofBehavior).get ⟨k, hkes⟩ ::
        (bs.map CmdState.ofBehavior).drop (k + 1)) = bs.map CmdState.ofBehavior := by
    rw [List.get_eq_getElem, ← List.drop_eq_getElem_cons hkes, List.take_append_drop]
  rw [List.nil_append, List.length_nil, hsplit] at hrun
  have hlen : ((bs.map CmdState.ofBehavior).take k).length = k := by
    simp
    omega
  rw [MacroCommand.execute]
  simp only [MacroCommand.ofBehaviors, ListIterator.ofList]
  rw [hrun]
  simp [hlen]

/-- C1: when the `k`-th sub-command is the first to report failure,
`MacroCommand.execute()` returns `false` immediately: each of
sub-commands `0..k` has its `execute()` invoked exactly once (the
failing one included — failure is read off its return value, not by
skipping it), sub-commands after `k` are never attempted, and the
cursor stops on the failed sub-command.  For sub-commands answering
`[true, false]` this gives overall result `false` with both executed
once, and a subsequent `revert()` invokes `revert()` on exactly the one
successfully-executed sub-command and returns `true` when that revert
succeeds. -/
theorem macro_first_failure_stops_and_unwinds :
    (∀ (bs : List CmdBehavior) (k : Nat) (hk : k < bs.length),
      (∀ i (hi : i < bs.length), i < k → (bs.get ⟨i, hi⟩).execRes 0 = true) →
      (bs.get ⟨k, hk⟩).execRes 0 = false →
      ∃ it₁ : ListIterator CmdState,
        (MacroCommand.ofBehaviors bs).execute =
          some (false, ⟨bs.map CmdState.ofBehavior, some it₁⟩) ∧
        it₁.cursor = k ∧
        it₁.elements.length = bs.length ∧
        (∀ i (hi : i < it₁.elements.length),
          (it₁.elements.get ⟨i, hi⟩).execCalls = if i ≤ k then 1 else 0) ∧
        (∀ i (hi : i < it₁.elements.length),
          (it₁.elements.get ⟨i, hi⟩).revCalls = 0)) ∧
    (∀ b₁ b₂ : CmdBehavior, b₁.execRes 0 = true → b₂.execRes 0 = false →
      b₁.revRes 0 = true →
      (MacroCommand.ofBehaviors [b₁, b₂]).execute =
        some (false, ⟨[CmdState.ofBehavior b₁, CmdState.ofBehavior b₂],
          some ⟨[⟨b₁, 1, 0⟩, ⟨b₂, 1, 0⟩], 1⟩⟩) ∧
      MacroCommand.revert ⟨[CmdState.ofBehavior b₁, CmdState.ofBehavior b₂],
          some ⟨[⟨b₁, 1, 0⟩, ⟨b₂, 1, 0⟩], 1⟩⟩ =
        some (true, ⟨[CmdState.ofBehavior b₁, CmdState.ofBehavior b₂],
          some ⟨[⟨b₁, 1, 1⟩, ⟨b₂, 1, 0⟩], 0⟩⟩)) := by
  constructor
  · intro bs k hk hpre hfail
    have hkes : k < (bs.map CmdState.ofBehavior).length := by simpa using hk
    refine ⟨⟨((bs.map CmdState.ofBehavior).take k).map CmdState.execNext ++
      (((bs.map CmdState.ofBehavior).get ⟨k, hkes⟩).execNext ::
        (bs.map CmdState.ofBehavior).drop (k + 1)), k⟩,
      fresh_execute_first_fail bs k hk hpre hfail, rfl, ?_, ?_, ?_⟩
    · simp
      omega
    · intro i hi
      have hcount := get_append_cons_count CmdState.execCalls 1 1 0
        (((bs.map CmdState.ofBehavior).take k).map CmdState.execNext)
        (((bs.map CmdState.ofBehavior).get ⟨k, hkes⟩).execNext)
        ((bs.map CmdState.ofBehavior).drop (k + 1)) ?_ ?_ ?_ i hi
      · rw [hcount]
        have hAlen : (((bs.map CmdState.ofBehavior).take k).map
            CmdState.execNext).length = k := by
          simp
          omega
        rw [hAlen]
        split_ifs <;> omega
      · intro x hx
        obtain ⟨y, hy, rfl⟩ := List.mem_map.1 hx
        obtain ⟨b, _, rfl⟩ := List.mem_map.1 (List.mem_of_mem_take hy)
        rfl
      · simp only [List.get_eq_getElem, List.getElem_map]
        rfl
      · intro x hx
        obtain ⟨b, _, rfl⟩ := List.mem_map.1 (List.mem_of_mem_drop hx)
        rfl
    · intro i hi
      have hcount := get_append_cons_count CmdState.revCalls 0 0 0
        (((bs.map CmdState.ofBehavior).take k).map CmdState.execNext)
        (((bs.map CmdState.ofBehavior).get ⟨k, hkes⟩).execNext)
        ((bs.map CmdState.ofBehavior).drop (k + 1)) ?_ ?_ ?_ i hi
      · rw [hcount]
        split_ifs <;> rfl
      · intro x hx
        obtain ⟨y, hy, rfl⟩ := List.mem_map.1 hx
        obtain ⟨b, _, rfl⟩ := List.mem_map.1 (List.mem_of_mem_take hy)
        rfl
      · simp only [List.get_eq_getElem, List.getElem_map]
        rfl
      · intro x hx
        obtain ⟨b, _, rfl⟩ := List.mem_map.1 (List.mem_of_mem_drop hx)
        rfl
  · intro b₁ b₂ h1 h2 hr
    constructor
    · have hpre2 : ∀ i (hi : i < ([b₁, b₂] : List CmdBehavior).length), i < 1 →
          (([b₁, b₂] : List CmdBehavior).get ⟨i, hi⟩).execRes 0 = true := by
        intro i hi hlt
        have hi0 : i = 0 := by omega
        subst hi0
        exact h1
      have hfail2 : (([b₁, b₂] : List CmdBehavior).get ⟨1, by simp⟩).execRes 0 = false :=
        h2
      exact fresh_execute_first_fail [b₁, b₂] 1 (by simp) hpre2 hfail2
    · have hrev := revLoop_success [⟨b₁, 1, 0⟩] [⟨b₂, 1, 0⟩] ?_
      · simpa [MacroCommand.revert, CmdState.revNext, CmdState.revert] using hrev
      · intro x hx
        simp at hx
        subst hx
        simpa [CmdState.revOk, CmdState.revert] using hr

/-- A sub-command behaviour whose every call reports success. -/
def bAllTrue : CmdBehavior := ⟨fun _ => true, fun _ => true⟩

/-- A sub-command behaviour whose `execute()` always fails and whose
`revert()` always succeeds. -/
def bExecFalse : CmdBehavior := ⟨fun _ => false, fun _ => true⟩

/-- Witness for C1 at the concrete `[true, false]` pair. -/
theorem macro_first_failure_witness :
    (MacroCommand.ofBehaviors [bAllTrue, bExecFalse]).execute =
      some (false, ⟨[CmdState.ofBehavior bAllTrue, CmdState.ofBehavior bExecFalse],
        some ⟨[⟨bAllTrue, 1, 0⟩, ⟨bExecFalse, 1, 0⟩], 1⟩⟩) ∧
    MacroCommand.revert ⟨[CmdState.ofBehavior bAllTrue, CmdState.ofBehavior bExecFalse],
        some ⟨[⟨bAllTrue, 1, 0⟩, ⟨bExecFalse, 1, 0⟩], 1⟩⟩ =
      some (true, ⟨[CmdState.ofBehavior bAllTrue, CmdState.ofBehavior bExecFalse],
        some ⟨[⟨bAllTrue, 1, 1⟩, ⟨bExecFalse, 1, 0⟩], 0⟩⟩) :=
  macro_first_failure_stops_and_unwinds.2 bAllTrue bExecFalse rfl rfl rfl

/-- C8: `revert()` before any `execute()` returns `true` and changes
nothing; an empty `MacroCommand` returns `true` from both `execute()`
and `revert()`; and an all-successful execute followed by an
all-successful revert parks the cursor back at 0, so a subsequent
`execute()` runs every sub-command again from the first (each
sub-command ends with two `execute()` calls and one `revert()` call). -/
theorem macro_trivial_revert_empty_and_roundtrip :
    (∀ bs : List CmdBehavior,
      (MacroCommand.ofBehaviors bs).revert = some (true, MacroCommand.ofBehaviors bs)) ∧
    ((MacroCommand.ofBehaviors []).execute = some (true, ⟨[], some ⟨[], 0⟩⟩) ∧
      MacroCommand.revert ⟨[], some ⟨([] : List CmdState), 0⟩⟩ =
        some (true, ⟨[], some ⟨[], 0⟩⟩)) ∧
    (∀ bs : List CmdBehavior, (∀ b ∈ bs, b.execRes 0 = true) →
      (∀ b ∈ bs, b.revRes 0 = true) →
      ∃ m₁ m₂ : MacroCommand, ∃ it₂ : ListIterator CmdState,
        (MacroCommand.ofBehaviors bs).execute = some (true, m₁) ∧
        m₁.revert = some (true, m₂) ∧
        m₂.iter = some it₂ ∧ it₂.cursor = 0 ∧
        ((∀ b ∈ bs, b.execRes 1 = true) →
          ∃ it₃ : ListIterator CmdState,
            m₂.execute = some (true, ⟨m₂.cmds, some it₃⟩) ∧
            it₃.cursor = it₃.elements.length ∧
            ∀ x ∈ it₃.elements, x.execCalls = 2 ∧ x.revCalls = 1)) := by
  refine ⟨fun bs => rfl, ⟨?_, ?_⟩, ?_⟩
  · have h0 := execLoop_done ([] : List CmdState)
    simp only [List.length_nil] at h0
    simp [MacroCommand.execute, MacroCommand.ofBehaviors, ListIterator.ofList, h0]
  · have h0 := revLoop_zero ([] : List CmdState)
    simp [MacroCommand.revert, h0]
  · intro bs hex hrev
    have hexec₁ := execLoop_success (bs.map CmdState.ofBehavior) []
      (by
        intro x hx
        obtain ⟨b, hb, rfl⟩ := List.mem_map.1 hx
        simpa [CmdState.execOk, CmdState.execute, CmdState.ofBehavior] using hex b hb)
    simp only [List.nil_append, List.length_nil, Nat.zero_add, List.length_map]
      at hexec₁
    have hrev₁ := revLoop_success ((bs.map CmdState.ofBehavior).map CmdState.execNext)
      []
      (by
        intro x hx
        obtain ⟨y, hy, rfl⟩ := List.mem_map.1 hx
        obtain ⟨b, hb, rfl⟩ := List.mem_map.1 hy
        simpa [CmdState.revOk, CmdState.revert, CmdState.execNext, CmdState.execute,
          CmdState.ofBehavior] using hrev b hb)
    simp only [List.append_nil, List.length_map] at hrev₁
    refine ⟨⟨bs.map CmdState.ofBehavior,
        some ⟨(bs.map CmdState.ofBehavior).map CmdState.execNext, bs.length⟩⟩,
      ⟨bs.map CmdState.ofBehavior,
        some ⟨((bs.map CmdState.ofBehavior).map CmdState.execNext).map CmdState.revNext,
          0⟩⟩,
      ⟨((bs.map CmdState.ofBehavior).map CmdState.execNext).map CmdState.revNext, 0⟩,
      ?_, ?_, rfl, rfl, ?_⟩
    · rw [MacroCommand.execute]
      simp only [MacroCommand.ofBehaviors, ListIterator.ofList]
      rw [hexec₁]
      rfl
    · simp only [MacroCommand.revert]
      rw [hrev₁]
      rfl
    · intro hex2
      have hexec₂ := execLoop_success
        (((bs.map CmdState.ofBehavior).map CmdState.execNext).map CmdState.revNext)
        []
        (by
          intro x hx
          obtain ⟨y, hy, rfl⟩ := List.mem_map.1 hx
          obtain ⟨z, hz, rfl⟩ := List.mem_map.1 hy
          obtain ⟨b, hb, rfl⟩ := List.mem_map.1 hz
          simpa [CmdState.execOk, CmdState.execute, CmdState.revNext, CmdState.revert,
            CmdState.execNext, CmdState.ofBehavior] using hex2 b hb)
      simp only [List.nil_append, List.length_nil, Nat.zero_add, List.length_map]
        at hexec₂
      refine ⟨⟨((((bs.map CmdState.ofBehavior).map CmdState.execNext).map
          CmdState.revNext)).map CmdState.execNext, bs.length⟩, ?_, by simp, ?_⟩
      · simp only [MacroCommand.execute]
        rw [hexec₂]
        rfl
      · intro x hx
        obtain ⟨y, hy, rfl⟩ := List.mem_map.1 hx
        obtain ⟨z, hz, rfl⟩ := List.mem_map.1 hy
        obtain ⟨w, hw, rfl⟩ := List.mem_map.1 hz
        obtain ⟨b, hb, rfl⟩ := List.mem_map.1 hw
        exact ⟨rfl, rfl⟩

/-- Witness for C8 at a single always-successful sub-command. -/
theorem macro_roundtrip_witness :
    ∃ m₁ m₂ : MacroCommand, ∃ it₂ : ListIterator CmdState,
      (MacroCommand.ofBehaviors [bAllTrue]).execute = some (true, m₁) ∧
      m₁.revert = some (true, m₂) ∧
      m₂.iter = some it₂ ∧ it₂.cursor = 0 ∧
      ((∀ b ∈ [bAllTrue], b.execRes 1 = true) →
        ∃ it₃ : ListIterator CmdState,
          m₂.execute = some (true, ⟨m₂.cmds, some it₃⟩) ∧
          it₃.cursor = it₃.elements.length ∧
          ∀ x ∈ it₃.elements, x.execCalls = 2 ∧ x.revCalls = 1) :=
  macro_trivial_revert_empty_and_roundtrip.2.2 [bAllTrue]
    (by intro b hb; simp at hb; subst hb; rfl)
    (by intro b hb; simp at hb; subst hb; rfl)

/-- C9: the snapshot taken at the first `execute()` isolates a run from
the live sub-command list: `execute()` / `revert()` never change the
registered list `cmds` (the original sub-command objects are never
mutated), and once the iterator exists, executing or reverting after an
`add()` behaves exactly as without the added sub-command — the addition
only lands, untouched, at the end of `cmds`. -/
theorem macro_snapshot_isolation (m : MacroCommand) (c : CmdState) :
    (∀ (b : Bool) (m₂ : MacroCommand), m.execute = some (b, m₂) → m₂.cmds = m.cmds) ∧
    (∀ (b : Bool) (m₂ : MacroCommand), m.revert = some (b, m₂) → m₂.cmds = m.cmds) ∧
    (m.iter.isSome = true →
      (m.add c).execute = m.execute.map (fun r => (r.1, r.2.add c)) ∧
      (m.add c).revert = m.revert.map (fun r => (r.1, r.2.add c))) := by
  refine ⟨?_, ?_, ?_⟩
  · intro b m₂ h
    cases hit : m.iter with
    | none =>
        simp only [MacroCommand.execute, hit] at h
        cases hE : execLoop (ListIterator.ofList m.cmds) with
        | none => rw [hE] at h; simp at h
        | some r =>
            rw [hE] at h
            simp only [Option.map_some', Option.some.injEq, Prod.mk.injEq] at h
            rw [← h.2]
    | some it =>
        simp only [MacroCommand.execute, hit] at h
        cases hE : execLoop it with
        | none => rw [hE] at h; simp at h
        | some r =>
            rw [hE] at h
            simp only [Option.map_some', Option.some.injEq, Prod.mk.injEq] at h
            rw [← h.2]
  · intro b m₂ h
    cases hit : m.iter with
    | none =>
        simp only [MacroCommand.revert, hit, Option.some.injEq, Prod.mk.injEq] at h
        rw [← h.2]
    | some it =>
        simp only [MacroCommand.revert, hit] at h
        cases hE : revLoop it with
        | none => rw [hE] at h; simp at h
        | some r =>
            rw [hE] at h
            simp only [Option.map_some', Option.some.injEq, Prod.mk.injEq] at h
            rw [← h.2]
  · intro hs
    obtain ⟨it, hit⟩ := Option.isSome_iff_exists.1 hs
    constructor
    · simp only [MacroCommand.execute, MacroCommand.add, hit]
      cases hE : execLoop it <;> simp [hE, MacroCommand.add]
    · simp only [MacroCommand.revert, MacroCommand.add, hit]
      cases hE : revLoop it <;> simp [hE, MacroCommand.add]

/-- Witness for C9 on a macro whose snapshot iterator already exists. -/
theorem macro_snapshot_isolation_witness :
    ((⟨[], some ⟨[], 0⟩⟩ : MacroCommand).add (CmdState.ofBehavior bAllTrue)).execute =
      (⟨[], some ⟨[], 0⟩⟩ : MacroCommand).execute.map
        (fun r => (r.1, r.2.add (CmdState.ofBehavior bAllTrue))) ∧
    ((⟨[], some ⟨[], 0⟩⟩ : MacroCommand).add (CmdState.ofBehavior bAllTrue)).revert =
      (⟨[], some ⟨[], 0⟩⟩ : MacroCommand).revert.map
        (fun r => (r.1, r.2.add (CmdState.ofBehavior bAllTrue))) :=
  (macro_snapshot_isolation ⟨[], some ⟨[], 0⟩⟩ (CmdState.ofBehavior bAllTrue)).2.2 rfl

/-! ### Counting successful calls (for the cursor invariant, C3) -/

/-- Number of `true` results among the first `n` scheduled outcomes. -/
def succCount (f : Nat → Bool) (n : Nat) : Nat := ((List.range n).filter f).length

/-- How many of the `execute()` calls made so far on `c` returned
success. -/
def CmdState.succExecs (c : CmdState) : Nat := succCount c.behavior.execRes c.execCalls

/-- How many of the `revert()` calls made so far on `c` returned
success. -/
def CmdState.succRevs (c : CmdState) : Nat := succCount c.behavior.revRes c.revCalls

/-- Total successful `execute()` calls over a snapshot list. -/
def sumSuccExecs (es : List CmdState) : Nat := (es.map CmdState.succExecs).sum

/-- Total successful `revert()` calls over a snapshot list. -/
def sumSuccRevs (es : List CmdState) : Nat := (es.map CmdState.succRevs).sum

lemma succCount_succ (f : Nat → Bool) (n : Nat) :
    succCount f (n + 1) = succCount f n + (if f n then 1 else 0) := by
  simp only [succCount, List.range_succ, List.filter_append]
  cases h : f n <;> simp [h]

lemma succExecs_execNext (c : CmdState) :
    c.execNext.succExecs = c.succExecs + (if c.execOk then 1 else 0) := by
  simp [CmdState.succExecs, CmdState.execNext, CmdState.execute, CmdState.execOk,
    succCount_succ]

lemma succRevs_execNext (c : CmdState) : c.execNext.succRevs = c.succRevs := rfl

lemma succExecs_revNext (c : CmdState) : c.revNext.succExecs = c.succExecs := rfl

lemma succRevs_revNext (c : CmdState) :
    c.revNext.succRevs = c.succRevs + (if c.revOk then 1 else 0) := by
  simp [CmdState.succRevs, CmdState.revNext, CmdState.revert, CmdState.revOk,
    succCount_succ]

lemma sumSuccExecs_append (A B : List CmdState) :
    sumSuccExecs (A ++ B) = sumSuccExecs A + sumSuccExecs B := by
  simp [sumSuccExecs]

lemma sumSuccRevs_append (A B : List CmdState) :
    sumSuccRevs (A ++ B) = sumSuccRevs A + sumSuccRevs B := by
  simp [sumSuccRevs]

lemma sumSuccExecs_map_execNext (todo : List CmdState)
    (h : ∀ x ∈ todo, x.execOk = true) :
    sumSuccExecs (todo.map CmdState.execNext) = sumSuccExecs todo + todo.length := by
  induction todo with
  | nil => rfl
  | cons t ts ih =>
      simp only [List.map_cons, sumSuccExecs, List.sum_cons] at ih ⊢
      rw [succExecs_execNext, h t (by simp), ih (fun x hx => h x (by simp [hx]))]
      simp
      omega

lemma sumSuccRevs_map_execNext (todo : List CmdState) :
    sumSuccRevs (todo.map CmdState.execNext) = sumSuccRevs todo := by
  induction todo with
  | nil => rfl
  | cons t ts ih =>
      simp only [List.map_cons, sumSuccRevs, List.sum_cons] at ih ⊢
      rw [succRevs_execNext, ih]

lemma sumSuccExecs_map_revNext (done : List CmdState) :
    sumSuccExecs (done.map CmdState.revNext) = sumSuccExecs done := by
  induction done with
  | nil => rfl
  | cons t ts ih =>
      simp only [List.map_cons, sumSuccExecs, List.sum_cons] at ih ⊢
      rw [succExecs_revNext, ih]

lemma sumSuccRevs_map_revNext (done : List CmdState)
    (h : ∀ x ∈ done, x.revOk = true) :
    sumSuccRevs (done.map CmdState.revNext) = sumSuccRevs done + done.length := by
  induction done with
  | nil => rfl
  | cons t ts ih =>
      simp only [List.map_cons, sumSuccRevs, List.sum_cons] at ih ⊢
      rw [succRevs_revNext, h t (by simp), ih (fun x hx => h x (by simp [hx]))]
      simp
      omega

lemma succExecs_execNext_of_fail (c : CmdState) (h : c.execOk = false) :
    c.execNext.succExecs = c.succExecs := by
  rw [succExecs_execNext, h]
  simp

lemma succRevs_revNext_of_fail (c : CmdState) (h : c.revOk = false) :
    c.revNext.succRevs = c.succRevs := by
  rw [succRevs_revNext, h]
  simp

/-- Split a list at the first element falsifying `p`, if any. -/
lemma first_false_split (p : α → Bool) (l : List α) :
    (∀ x ∈ l, p x = true) ∨
    ∃ mid t rest, l = mid ++ t :: rest ∧ (∀ x ∈ mid, p x = true) ∧ p t = false := by
  induction l with
  | nil => left; simp
  | cons a as ih =>
      cases ha : p a with
      | false => right; exact ⟨[], a, as, by simp, by simp, ha⟩
      | true =>
          rcases ih with h | ⟨mid, t, rest, hsplit, hmid, ht⟩
          · left
            intro x hx
            rcases List.mem_cons.1 hx with rfl | hx
            · exact ha
            · exact h x hx
          · right
            refine ⟨a :: mid, t, rest, by simp [hsplit], ?_, ht⟩
            intro x hx
            rcases List.mem_cons.1 hx with rfl | hx
            · exact ha
            · exact hmid x hx

/-- Split a list at the last element falsifying `p`, if any. -/
lemma last_false_split (p : α → Bool) (l : List α) :
    (∀ x ∈ l, p x = true) ∨
    ∃ front t mid, l = front ++ t :: mid ∧ (∀ x ∈ mid, p x = true) ∧ p t = false := by
  induction l using List.reverseRecOn with
  | nil => left; simp
  | append_singleton as a ih =>
      cases ha : p a with
      | false => right; exact ⟨as, a, [], by simp, by simp, ha⟩
      | true =>
          rcases ih with h | ⟨front, t, mid, hsplit, hmid, ht⟩
          · left
            intro x hx
            rcases List.mem_append.1 hx with hx | hx
            · exact h x hx
            · simp at hx
              subst hx
              exact ha
          · right
            refine ⟨front, t, mid ++ [a], by simp [hsplit], ?_, ht⟩
            intro x hx
            rcases List.mem_append.1 hx with hx | hx
            · exact hmid x hx
            · simp at hx
              subst hx
              exact ha


lemma sumSuccExecs_cons (t : CmdState) (C : List CmdState) :
    sumSuccExecs (t :: C) = t.succExecs + sumSuccExecs C := by
  simp [sumSuccExecs]

lemma sumSuccRevs_cons (t : CmdState) (C : List CmdState) :
    sumSuccRevs (t :: C) = t.succRevs + sumSuccRevs C := by
  simp [sumSuccRevs]

/-- One `execute()` call on a `MacroCommand` preserves the quantity
(successful executes) − (successful reverts) − cursor over the
snapshot, and keeps the cursor within bounds. -/
lemma execLoop_balance (es : List CmdState) (c : Nat) (b : Bool)
    (it' : ListIterator CmdState) (hc : c ≤ es.length)
    (hrun : execLoop ⟨es, c⟩ = some (b, it')) :
    it'.cursor + sumSuccRevs it'.elements + sumSuccExecs es =
      c + sumSuccRevs es + sumSuccExecs it'.elements ∧
    it'.cursor ≤ it'.elements.length := by
  have hsplit : es.take c ++ es.drop c = es := List.take_append_drop c es
  have hdl : (es.take c).length = c := by simp; omega
  rcases first_false_split CmdState.execOk (es.drop c) with hall |
    ⟨mid, t, rest, hdrop, hmid, ht⟩
  · have hrun2 := execLoop_success (es.drop c) (es.take c) hall
    rw [hdl, hsplit] at hrun2
    have heq := Option.some.inj (hrun2.symm.trans hrun)
    simp only [Prod.mk.injEq] at heq
    obtain ⟨hb, hx⟩ := heq
    subst hx
    have hE : sumSuccExecs es = sumSuccExecs (es.take c) + sumSuccExecs (es.drop c) := by
      conv_lhs => rw [← hsplit]
      rw [sumSuccExecs_append]
    have hR : sumSuccRevs es = sumSuccRevs (es.take c) + sumSuccRevs (es.drop c) := by
      conv_lhs => rw [← hsplit]
      rw [sumSuccRevs_append]
    constructor
    · simp only [sumSuccExecs_append, sumSuccRevs_append,
        sumSuccExecs_map_execNext (es.drop c) hall, sumSuccRevs_map_execNext]
      omega
    · simp only [List.length_append, List.length_map]
      omega
  · have hrun2 := execLoop_failure mid t (es.take c) rest hmid ht
    rw [← hdrop, hsplit, hdl] at hrun2
    have heq := Option.some.inj (hrun2.symm.trans hrun)
    simp only [Prod.mk.injEq] at heq
    obtain ⟨hb, hx⟩ := heq
    subst hx
    have hlen : (es.drop c).length = mid.length + 1 + rest.length := by
      rw [hdrop]
      simp
      omega
    have hE : sumSuccExecs es = sumSuccExecs (es.take c) +
        (sumSuccExecs mid + (t.succExecs + sumSuccExecs rest)) := by
      conv_lhs => rw [← hsplit, hdrop]
      rw [sumSuccExecs_append, sumSuccExecs_append, sumSuccExecs_cons]
    have hR : sumSuccRevs es = sumSuccRevs (es.take c) +
        (sumSuccRevs mid + (t.succRevs + sumSuccRevs rest)) := by
      conv_lhs => rw [← hsplit, hdrop]
      rw [sumSuccRevs_append, sumSuccRevs_append, sumSuccRevs_cons]
    constructor
    · simp only [sumSuccExecs_append, sumSuccRevs_append, sumSuccExecs_cons,
        sumSuccRevs_cons, sumSuccExecs_map_execNext mid hmid,
        sumSuccRevs_map_execNext, succExecs_execNext_of_fail t ht,
        succRevs_execNext]
      omega
    · have hles : es.length = c + (es.drop c).length := by simp; omega
      simp only [List.length_append, List.length_map, List.length_cons]
      omega

/-- One `revert()` call on a `MacroCommand` preserves the quantity
(successful executes) − (successful reverts) − cursor over the
snapshot, and keeps the cursor within bounds. -/
lemma revLoop_balance (es : List CmdState) (c : Nat) (b : Bool)
    (it' : ListIterator CmdState) (hc : c ≤ es.length)
    (hrun : revLoop ⟨es, c⟩ = some (b, it')) :
    it'.cursor + sumSuccRevs it'.elements + sumSuccExecs es =
      c + sumSuccRevs es + sumSuccExecs it'.elements ∧
    it'.cursor ≤ it'.elements.length := by
  have hsplit : es.take c ++ es.drop c = es := List.take_append_drop c es
  have hdl : (es.take c).length = c := by simp; omega
  rcases last_false_split CmdState.revOk (es.take c) with hall |
    ⟨front, t, mid, htake, hmid, ht⟩
  · have hrun2 := revLoop_success (es.take c) (es.drop c) hall
    rw [hdl, hsplit] at hrun2
    have heq := Option.some.inj (hrun2.symm.trans hrun)
    simp only [Prod.mk.injEq] at heq
    obtain ⟨hb, hx⟩ := heq
    subst hx
    have hE : sumSuccExecs es = sumSuccExecs (es.take c) + sumSuccExecs (es.drop c) := by
      conv_lhs => rw [← hsplit]
      rw [sumSuccExecs_append]
    have hR : sumSuccRevs es = sumSuccRevs (es.take c) + sumSuccRevs (es.drop c) := by
      conv_lhs => rw [← hsplit]
      rw [sumSuccRevs_append]
    constructor
    · simp only [sumSuccExecs_append, sumSuccRevs_append,
        sumSuccRevs_map_revNext (es.take c) hall, sumSuccExecs_map_revNext]
      omega
    · simp
  · have hclen : c = front.length + 1 + mid.length := by
      rw [← hdl, htake]
      simp
      omega
    have hshape : es = front ++ t :: (mid ++ es.drop c) := by
      conv_lhs => rw [← hsplit, htake]
      simp
    have hrun2 := revLoop_failure mid t front (es.drop c) hmid ht
    rw [← hshape, ← hclen] at hrun2
    have heq := Option.some.inj (hrun2.symm.trans hrun)
    simp only [Prod.mk.injEq] at heq
    obtain ⟨hb, hx⟩ := heq
    subst hx
    have hE : sumSuccExecs es = sumSuccExecs front +
        (t.succExecs + (sumSuccExecs mid + sumSuccExecs (es.drop c))) := by
      conv_lhs => rw [hshape]
      rw [sumSuccExecs_append, sumSuccExecs_cons, sumSuccExecs_append]
    have hR : sumSuccRevs es = sumSuccRevs front +
        (t.succRevs + (sumSuccRevs mid + sumSuccRevs (es.drop c))) := by
      conv_lhs => rw [hshape]
      rw [sumSuccRevs_append, sumSuccRevs_cons, sumSuccRevs_append]
    constructor
    · simp only [sumSuccExecs_append, sumSuccRevs_append, sumSuccExecs_cons,
        sumSuccRevs_cons, sumSuccRevs_map_revNext mid hmid,
        sumSuccExecs_map_revNext, succRevs_revNext_of_fail t ht,
        succExecs_revNext]
      omega
    · have hes2 : es.length = front.length + 1 + mid.length + (es.drop c).length := by
        rw [hshape]
        simp
        omega
      simp only [List.length_append, List.length_map, List.length_cons]
      omega


/-! ### Reachable MacroCommand states (interleaved execute/revert calls) -/

/-- States of a `MacroCommand` reachable from a fresh instance over the
behaviours `bs` by any interleaving of completed `execute()` and
`revert()` calls. -/
inductive Reachable (bs : List CmdBehavior) : MacroCommand → Prop where
  | init : Reachable bs (MacroCommand.ofBehaviors bs)
  | stepExecute {m : MacroCommand} {b : Bool} {m₂ : MacroCommand}
      (prev : Reachable bs m) (hstep : m.execute = some (b, m₂)) : Reachable bs m₂
  | stepRevert {m : MacroCommand} {b : Bool} {m₂ : MacroCommand}
      (prev : Reachable bs m) (hstep : m.revert = some (b, m₂)) : Reachable bs m₂

lemma execute_inversion (m : MacroCommand) (b : Bool) (m₂ : MacroCommand)
    (h : m.execute = some (b, m₂)) :
    ∃ it₀ r, (m.iter = none ∧ it₀ = ListIterator.ofList m.cmds ∨ m.iter = some it₀) ∧
      execLoop it₀ = some r ∧ b = r.1 ∧ m₂ = ⟨m.cmds, some r.2⟩ := by
  cases hit : m.iter with
  | none =>
      simp only [MacroCommand.execute, hit] at h
      cases hE : execLoop (ListIterator.ofList m.cmds) with
      | none => rw [hE] at h; simp at h
      | some r =>
          rw [hE] at h
          simp only [Option.map_some', Option.some.injEq, Prod.mk.injEq] at h
          exact ⟨_, r, Or.inl ⟨rfl, rfl⟩, hE, h.1.symm, h.2.symm⟩
  | some it =>
      simp only [MacroCommand.execute, hit] at h
      cases hE : execLoop it with
      | none => rw [hE] at h; simp at h
      | some r =>
          rw [hE] at h
          simp only [Option.map_some', Option.some.injEq, Prod.mk.injEq] at h
          exact ⟨it, r, Or.inr rfl, hE, h.1.symm, h.2.symm⟩

lemma revert_inversion (m : MacroCommand) (b : Bool) (m₂ : MacroCommand)
    (h : m.revert = some (b, m₂)) :
    (m.iter = none ∧ b = true ∧ m₂ = m) ∨
    ∃ it₀ r, m.iter = some it₀ ∧ revLoop it₀ = some r ∧ b = r.1 ∧
      m₂ = ⟨m.cmds, some r.2⟩ := by
  cases hit : m.iter with
  | none =>
      simp only [MacroCommand.revert, hit, Option.some.injEq, Prod.mk.injEq] at h
      exact Or.inl ⟨rfl, h.1.symm, h.2.symm⟩
  | some it =>
      simp only [MacroCommand.revert, hit] at h
      cases hE : revLoop it with
      | none => rw [hE] at h; simp at h
      | some r =>
          rw [hE] at h
          simp only [Option.map_some', Option.some.injEq, Prod.mk.injEq] at h
          exact Or.inr ⟨it, r, rfl, hE, h.1.symm, h.2.symm⟩

lemma sums_fresh (bs : List CmdBehavior) :
    sumSuccExecs (bs.map CmdState.ofBehavior) = 0 ∧
    sumSuccRevs (bs.map CmdState.ofBehavior) = 0 := by
  induction bs with
  | nil => exact ⟨rfl, rfl⟩
  | cons b bs ih =>
      simp only [List.map_cons, sumSuccExecs_cons, sumSuccRevs_cons]
      exact ⟨by rw [ih.1]; rfl, by rw [ih.2]; rfl⟩

/-- Every reachable `MacroCommand` state keeps the registered list equal
to the fresh sub-command objects, and its snapshot cursor (when it
exists) within bounds and equal to the net count of successful
`execute()` calls not yet undone by successful `revert()` calls. -/
lemma reachable_inv (bs : List CmdBehavior) (m : MacroCommand)
    (h : Reachable bs m) :
    m.cmds = bs.map CmdState.ofBehavior ∧
    ∀ it, m.iter = some it →
      it.cursor ≤ it.elements.length ∧
      it.cursor + sumSuccRevs it.elements = sumSuccExecs it.elements := by
  induction h with
  | init =>
      refine ⟨rfl, ?_⟩
      intro it hit
      simp [MacroCommand.ofBehaviors] at hit
  | stepExecute prev hstep ih =>
      obtain ⟨hcmds, hiter⟩ := ih
      obtain ⟨it₀, r, hcase, hE, hb, hm₂⟩ := execute_inversion _ _ _ hstep
      have hbase : it₀.cursor ≤ it₀.elements.length ∧
          it₀.cursor + sumSuccRevs it₀.elements = sumSuccExecs it₀.elements := by
        rcases hcase with ⟨hnone, hfresh⟩ | hsome
        · subst hfresh
          refine ⟨by simp [ListIterator.ofList], ?_⟩
          simp only [ListIterator.ofList, hcmds]
          rw [(sums_fresh bs).1, (sums_fresh bs).2]
        · exact hiter it₀ hsome
      have hbal := execLoop_balance it₀.elements it₀.cursor r.1 r.2 hbase.1
        (by rw [← hE])
      subst hm₂
      refine ⟨hcmds, ?_⟩
      intro it hit
      simp only [Option.some.injEq] at hit
      subst hit
      exact ⟨hbal.2, by have h1 := hbal.1; have h2 := hbase.2; omega⟩
  | stepRevert prev hstep ih =>
      obtain ⟨hcmds, hiter⟩ := ih
      rcases revert_inversion _ _ _ hstep with ⟨hnone, hb, hm₂⟩ |
        ⟨it₀, r, hsome, hE, hb, hm₂⟩
      · subst hm₂
        exact ⟨hcmds, hiter⟩
      · have hbase := hiter it₀ hsome
        have hbal := revLoop_balance it₀.elements it₀.cursor r.1 r.2 hbase.1
          (by rw [← hE])
        subst hm₂
        refine ⟨hcmds, ?_⟩
        intro it hit
        simp only [Option.some.injEq] at hit
        subst hit
        exact ⟨hbal.2, by have h1 := hbal.1; have h2 := hbase.2; omega⟩

/-- C3: at every point between calls, over any interleaving of
`execute()` and `revert()` on a `MacroCommand`, the snapshot cursor sits
at exactly the number of sub-command `execute()` calls that returned
success and have not been undone by a successful `revert()`: each
successful `execute()` advances it by one and a failing one steps it
back; each successful `revert()` moves it back and a failing one steps
it forward. -/
theorem macro_cursor_invariant (bs : List CmdBehavior) (m : MacroCommand)
    (h : Reachable bs m) (it : ListIterator CmdState) (hit : m.iter = some it) :
    it.cursor + sumSuccRevs it.elements = sumSuccExecs it.elements :=
  ((reachable_inv bs m h).2 it hit).2

lemma demo_exec_step :
    (MacroCommand.ofBehaviors [bAllTrue]).execute =
      some (true, ⟨[CmdState.ofBehavior bAllTrue], some ⟨[⟨bAllTrue, 1, 0⟩], 1⟩⟩) := by
  have h := execLoop_success [CmdState.ofBehavior bAllTrue] []
    (by intro x hx; simp at hx; subst hx; rfl)
  simp only [List.nil_append, List.length_nil, Nat.zero_add, List.map_cons,
    List.map_nil, List.length_cons] at h
  rw [MacroCommand.execute]
  simp only [MacroCommand.ofBehaviors, ListIterator.ofList, List.map_cons, List.map_nil]
  rw [h]
  rfl

/-- Witness for C3 after one `execute()` call on a one-command macro. -/
theorem macro_cursor_invariant_witness :
    (1 : Nat) + sumSuccRevs [⟨bAllTrue, 1, 0⟩] = sumSuccExecs [⟨bAllTrue, 1, 0⟩] :=
  macro_cursor_invariant [bAllTrue]
    ⟨[CmdState.ofBehavior bAllTrue], some ⟨[⟨bAllTrue, 1, 0⟩], 1⟩⟩
    (Reachable.stepExecute Reachable.init demo_exec_step)
    ⟨[⟨bAllTrue, 1, 0⟩], 1⟩ rfl


/-! ## ArtveeClient (artvee_client.py)

`get_page_count` and `get_metadata` are embedded over abstract HTTP
responses: the transport (requests session, retries) is the external
collaborator, so a response arrives as a status code plus the pieces of
the parsed body the code reads (the text of the
`p.woocommerce-result-count` node, respectively the
`div.product-element-bottom` entries).  `Except.error` stands for a
raised exception. -/

/-- The character set Python strips in `.strip("items")`. -/
def itemsChars : List Char := [ 'i', 't', 'e', 'm', 's' ]

/-- Python `str.strip(chars)`: remove characters of the set from both
ends. -/
def pyStripChars (s : String) (chars : List Char) : String :=
  String.mk (((s.toList.dropWhile (· ∈ chars)).reverse.dropWhile (· ∈ chars)).reverse)

/-- Python `str.strip()`: remove whitespace from both ends. -/
def pyStripWs (s : String) : String :=
  String.mk (((s.toList.dropWhile Char.isWhitespace).reverse.dropWhile
    Char.isWhitespace).reverse)

/-- Valid Python integer digit run: decimal digits with single grouping
underscores strictly between digits. -/
def pyDigits : List Char → Bool
  | [] => false
  | [c] => c.isDigit
  | c :: c₂ :: rest =>
      c.isDigit && (if c₂ = '_' then pyDigits rest else pyDigits (c₂ :: rest))

/-- Numeric value of a digit run, skipping grouping underscores. -/
def digitsToNat (cs : List Char) : Nat :=
  cs.foldl (fun acc c => if c = '_' then acc else acc * 10 + (c.toNat - '0'.toNat)) 0

/-- Python `int(s)` on a string: optional surrounding whitespace, an
optional sign, then a digit run; `none` models the `ValueError`. -/
def pyIntOfString (s : String) : Option Int :=
  match ((s.toList.dropWhile Char.isWhitespace).reverse.dropWhile
      Char.isWhitespace).reverse with
  | '+' :: rest => if pyDigits rest then some (Int.ofNat (digitsToNat rest)) else none
  | '-' :: rest => if pyDigits rest then some (-(Int.ofNat (digitsToNat rest))) else none
  | cs => if pyDigits cs then some (Int.ofNat (digitsToNat cs)) else none

/-- What `get_page_count` reads from the HTTP response: the status code
and the text of the `p.woocommerce-result-count` node (`none` when
`soup.find` returns `None`). -/
structure PageCountResponse where
  statusCode : Nat
  countText : Option String

/-- Exceptions `get_page_count` can raise: `requestError` is the
`requests.HTTPError` from `raise_for_status()`; `countNotFound` the
`AttributeError` when the count element is missing; `notAnInteger` the
`ValueError` from `int()`; `overflowError` the `OverflowError` when the
float true division overflows the double range. -/
inductive PageCountError where
  | requestError (status : Nat)
  | countNotFound
  | notAnInteger (text : String)
  | overflowError
  deriving DecidableEq, Repr

/-- `Response.raise_for_status()` raises exactly for status codes
400-599. -/
def raiseForStatus (status : Nat) : Bool :=
  decide (400 ≤ status) && decide (status < 600)

/-- `ArtveeClient._ITEMS_PER_PAGE`. -/
def ITEMS_PER_PAGE : Nat := 70

/-- Floor of the base-2 logarithm, by structural recursion on a fuel
bound (any fuel at least the bit length suffices). -/
def log2Fuel : Nat → Nat → Nat
  | 0, _ => 0
  | fuel + 1, n => if n ≤ 1 then 0 else log2Fuel fuel (n / 2) + 1

/-- Floor of the base-2 logarithm (the fuel `n` always suffices). -/
def natLog2 (n : ℕ) : ℕ := log2Fuel n n

/-- Round-to-nearest integer of the fraction `a / b` (for `b > 0`),
ties to the even integer — the rounding IEEE-754 binary64 uses. -/
def rneDiv (a b : ℕ) : ℕ :=
  if 2 * (a % b) < b then a / b
  else if b < 2 * (a % b) then a / b + 1
  else a / b + a / b % 2

/-- The IEEE-754 binary64 value nearest `a / 70` for `a ≥ 1`, as a
mantissa/exponent pair `(m, e)` denoting `m * 2 ^ (e - 52)`: the
quotient is scaled into the 53-bit band `[2^52, 2^53)` around its
binary exponent `e` and rounded to nearest, ties to even.  (`a / 70`
always sits far above the subnormal range, since `a ≥ 1`.) -/
def posFloatParts70 (a : ℕ) : ℕ × ℤ :=
  let e : ℤ := (natLog2 (a * 2 ^ 59 / 70) : ℤ) - 59
  if e ≤ 52 then (rneDiv (a * 2 ^ ((52 : ℤ) - e).toNat) 70, e)
  else (rneDiv a (70 * 2 ^ (e - 52).toNat), e)

/-- `math.ceil(n / 70)` exactly as the program computes it: Python's
int/int true division returns the binary64 double nearest the exact
quotient (raising `OverflowError`, modelled as `none`, when that
rounded value reaches `2^1024`), and `math.ceil` of the double is
exact.  Negative totals go through the same rounding by symmetry, with
`ceil (-x) = -floor x`.  Specialized to `_ITEMS_PER_PAGE = 70`. -/
def ceilFloatDiv70 (n : ℤ) : Option ℤ :=
  if n = 0 then some 0
  else
    let p := posFloatParts70 n.natAbs
    if 52 < p.2 ∧ 2 ^ ((1076 : ℤ) - p.2).toNat ≤ p.1 then none
    else if 0 < n then
      some (((if p.2 ≤ 52 then
        (p.1 + 2 ^ ((52 : ℤ) - p.2).toNat - 1) / 2 ^ ((52 : ℤ) - p.2).toNat
      else p.1 * 2 ^ (p.2 - 52).toNat : ℕ) : ℤ))
    else
      some (-(((if p.2 ≤ 52 then p.1 / 2 ^ ((52 : ℤ) - p.2).toNat
      else p.1 * 2 ^ (p.2 - 52).toNat : ℕ) : ℤ)))

/-- The tail of `get_page_count` once the total has been parsed:
`math.ceil(total_items / 70)`, whose uncaught `OverflowError`
propagates out. -/
def pageCountOfTotal (n : ℤ) : Except PageCountError ℤ :=
  match ceilFloatDiv70 n with
  | none => Except.error .overflowError
  | some v => Except.ok v

/-- `ArtveeClient.get_page_count`: `raise_for_status()`, locate the
result-count text, strip the `"items"` characters and whitespace,
convert with `int()`, and return `math.ceil(total / 70)`. -/
def get_page_count (resp : PageCountResponse) : Except PageCountError Int :=
  if raiseForStatus resp.statusCode then
    Except.error (.requestError resp.statusCode)
  else
    match resp.countText with
    | none => Except.error .countNotFound
    | some t =>
        let totalItems := pyStripWs (pyStripChars t itemsChars)
        match pyIntOfString totalItems with
        | none => Except.error (.notAnInteger totalItems)
        | some n => pageCountOfTotal n

/-- The fuel-indexed binary logarithm is the floor of `log2` whenever
the fuel covers the argument. -/
lemma log2Fuel_spec (fuel n : ℕ) (h1 : 1 ≤ n) (hfuel : n ≤ fuel) :
    2 ^ log2Fuel fuel n ≤ n ∧ n < 2 ^ (log2Fuel fuel n + 1) := by
  induction fuel generalizing n with
  | zero => exact absurd (h1.trans hfuel) (by norm_num)
  | succ f ih =>
    rw [log2Fuel]
    by_cases hn : n ≤ 1
    · rw [if_pos hn]
      have hn1 : n = 1 := by omega
      subst hn1
      norm_num
    · rw [if_neg hn]
      have h2 : 1 ≤ n / 2 := by omega
      have hf : n / 2 ≤ f := by omega
      obtain ⟨hl, hr⟩ := ih (n / 2) h2 hf
      constructor
      · calc (2 : ℕ) ^ (log2Fuel f (n / 2) + 1) = 2 ^ log2Fuel f (n / 2) * 2 := by ring
          _ ≤ (n / 2) * 2 := Nat.mul_le_mul_right 2 hl
          _ ≤ n := by omega
      · calc n < (n / 2 + 1) * 2 := by omega
          _ ≤ 2 ^ (log2Fuel f (n / 2) + 1) * 2 := Nat.mul_le_mul_right 2 hr
          _ = 2 ^ (log2Fuel f (n / 2) + 1 + 1) := by ring

/-- `natLog2` brackets its positive argument between consecutive
powers of two. -/
lemma natLog2_spec (n : ℕ) (h1 : 1 ≤ n) :
    2 ^ natLog2 n ≤ n ∧ n < 2 ^ (natLog2 n + 1) :=
  log2Fuel_spec n n h1 le_rfl

/-- Round-to-nearest never overshoots: if `a / b` lies strictly below
`y + 1/2` then the rounded value is at most `y` (covering the tie
arm as well). -/
lemma rneDiv_le (a b y : ℕ) (hb : 0 < b) (h : 2 * a < (2 * y + 1) * b) :
    rneDiv a b ≤ y := by
  have hdm := Nat.div_add_mod a b
  rw [Nat.mul_comm b (a / b)] at hdm
  have hm : a % b < b := Nat.mod_lt _ hb
  have h0 : 2 * a < 2 * (y * b) + b := by
    calc 2 * a < (2 * y + 1) * b := h
      _ = 2 * (y * b) + b := by ring
  rw [rneDiv]
  by_cases h1 : 2 * (a % b) < b
  · rw [if_pos h1]
    by_contra hc
    push_neg at hc
    have e1 : (y + 1) * b ≤ a / b * b := Nat.mul_le_mul_right b (by omega)
    have e2 : y * b + b ≤ a / b * b := by
      calc y * b + b = (y + 1) * b := by ring
        _ ≤ a / b * b := e1
    omega
  · rw [if_neg h1]
    by_cases h2 : b < 2 * (a % b)
    · rw [if_pos h2]
      by_contra hc
      push_neg at hc
      have e1 : y * b ≤ a / b * b := Nat.mul_le_mul_right b (by omega)
      omega
    · rw [if_neg h2]
      have htie : 2 * (a % b) = b := by omega
      by_contra hc
      push_neg at hc
      have e1 : y * b ≤ a / b * b := Nat.mul_le_mul_right b (by omega)
      omega

/-- Round-to-nearest never undershoots: if `a / b` lies strictly above
`y + 1/2` then the rounded value is at least `y + 1`. -/
lemma rneDiv_ge (a b y : ℕ) (hb : 0 < b) (h : (2 * y + 1) * b < 2 * a) :
    y + 1 ≤ rneDiv a b := by
  have hdm := Nat.div_add_mod a b
  rw [Nat.mul_comm b (a / b)] at hdm
  have hm : a % b < b := Nat.mod_lt _ hb
  have h0 : 2 * (y * b) + b < 2 * a := by
    calc 2 * (y * b) + b = (2 * y + 1) * b := by ring
      _ < 2 * a := h
  rw [rneDiv]
  by_cases h1 : 2 * (a % b) < b
  · rw [if_pos h1]
    by_contra hc
    push_neg at hc
    have e1 : a / b * b ≤ y * b := Nat.mul_le_mul_right b (by omega)
    omega
  · rw [if_neg h1]
    by_cases h2 : b < 2 * (a % b)
    · rw [if_pos h2]
      by_contra hc
      push_neg at hc
      have e1 : (a / b + 1) * b ≤ y * b := Nat.mul_le_mul_right b (by omega)
      have e2 : a / b * b + b ≤ y * b := by
        calc a / b * b + b = (a / b + 1) * b := by ring
          _ ≤ y * b := e1
      omega
    · rw [if_neg h2]
      have htie : 2 * (a % b) = b := by omega
      by_contra hc
      push_neg at hc
      have e1 : a / b * b ≤ y * b := Nat.mul_le_mul_right b (by omega)
      omega

/-- An exact multiple rounds to itself. -/
lemma rneDiv_mul (c b : ℕ) (hb : 0 < b) : rneDiv (c * b) b = c := by
  have h1 : c * b % b = 0 := Nat.mul_mod_left c b
  have h2 : c * b / b = c := by
    rw [Nat.mul_div_assoc c (dvd_refl b), Nat.div_self hb, Nat.mul_one]
  rw [rneDiv, h1, h2]
  simp [hb]

/-- Evaluation of `ceilFloatDiv70` on a positive total whose scaled
quotient has binary magnitude at most `2 ^ 105`: the exponent stays at
or below 52, so no overflow fires and the result is the ceiling of the
rounded mantissa over its scaling power. -/
lemma ceilFloatDiv70_pos_eval (N : ℕ) (hpos : 0 < N)
    (h52 : 52 ≤ natLog2 (N * 2 ^ 59 / 70)) (h105 : natLog2 (N * 2 ^ 59 / 70) ≤ 105) :
    ceilFloatDiv70 (N : ℤ) =
      some ((((rneDiv (N * 2 ^ (111 - natLog2 (N * 2 ^ 59 / 70))) 70 +
        2 ^ (111 - natLog2 (N * 2 ^ 59 / 70)) - 1) /
        2 ^ (111 - natLog2 (N * 2 ^ 59 / 70)) : ℕ) : ℤ)) := by
  have hn0 : ¬((N : ℤ) = 0) := by
    simp only [Int.natCast_eq_zero]
    omega
  have hposZ : (0 : ℤ) < (N : ℤ) := by exact_mod_cast hpos
  set E := natLog2 (N * 2 ^ 59 / 70) with hE
  have he52 : ((E : ℤ) - 59 : ℤ) ≤ 52 := by omega
  have htoNat : ((52 : ℤ) - ((E : ℤ) - 59)).toNat = 111 - E := by omega
  have hparts : posFloatParts70 N = (rneDiv (N * 2 ^ (111 - E)) 70, (E : ℤ) - 59) := by
    unfold posFloatParts70
    rw [← hE]
    simp only [if_pos he52]
    rw [htoNat]
  have hguard : ¬(52 < ((E : ℤ) - 59 : ℤ) ∧
      2 ^ ((1076 : ℤ) - ((E : ℤ) - 59)).toNat ≤ rneDiv (N * 2 ^ (111 - E)) 70) :=
    fun hcon => absurd hcon.1 (by omega)
  unfold ceilFloatDiv70
  rw [if_neg hn0]
  simp only [Int.natAbs_ofNat]
  rw [hparts]
  dsimp only
  rw [if_neg hguard, if_pos hposZ, if_pos he52, htoNat]

/-- Below `2 ^ 53` items the float division is exact enough: the
half-ulp of the quotient is under `1 / 70`, so rounding never crosses
an integer and the computed ceiling equals the exact `⌈N / 70⌉`. -/
lemma ceilFloatDiv70_exact (N : ℕ) (hN : N ≤ 2 ^ 53) :
    ceilFloatDiv70 (N : ℤ) = some ⌈(N : ℚ) / 70⌉ := by
  rcases Nat.eq_zero_or_pos N with h0 | hpos
  · subst h0
    norm_num [ceilFloatDiv70]
  · have hql : 2 ^ 52 ≤ N * 2 ^ 59 / 70 := by
      calc (2 : ℕ) ^ 52 ≤ 1 * 2 ^ 59 / 70 := by norm_num
        _ ≤ N * 2 ^ 59 / 70 := Nat.div_le_div_right (Nat.mul_le_mul_right _ hpos)
    have hqu : N * 2 ^ 59 / 70 < 2 ^ 106 := by
      have h1 : N * 2 ^ 59 ≤ 2 ^ 53 * 2 ^ 59 := Nat.mul_le_mul_right _ hN
      have h2 : (2 : ℕ) ^ 53 * 2 ^ 59 < 2 ^ 106 * 70 := by norm_num
      omega
    have hq1 : 1 ≤ N * 2 ^ 59 / 70 := le_trans (by norm_num) hql
    obtain ⟨hEl, hEu⟩ := natLog2_spec _ hq1
    set E := natLog2 (N * 2 ^ 59 / 70) with hE
    have h52 : 52 ≤ E := by
      by_contra hc
      push_neg at hc
      have hpow : (2 : ℕ) ^ (E + 1) ≤ 2 ^ 52 :=
        Nat.pow_le_pow_right (by norm_num) (by omega)
      exact absurd hql (not_le.mpr (lt_of_lt_of_le hEu hpow))
    have h105 : E ≤ 105 := by
      by_contra hc
      push_neg at hc
      have hpow : (2 : ℕ) ^ 106 ≤ 2 ^ E :=
        Nat.pow_le_pow_right (by norm_num) (by omega)
      exact absurd hqu (not_lt.mpr (le_trans hpow hEl))
    rw [ceilFloatDiv70_pos_eval N hpos h52 h105]
    rw [← hE]
    set s := 111 - E with hs
    set P := 2 ^ s with hP
    have hP64 : 64 ≤ P := by
      rw [hP]
      calc (64 : ℕ) = 2 ^ 6 := by norm_num
        _ ≤ 2 ^ s := Nat.pow_le_pow_right (by norm_num) (by omega)
    set k := N / 70 with hk
    set r := N % 70 with hr
    have hNkr : 70 * k + r = N := by rw [hk, hr]; exact Nat.div_add_mod N 70
    have hr70 : r < 70 := by rw [hr]; exact Nat.mod_lt _ (by norm_num)
    set m := rneDiv (N * P) 70 with hm
    obtain ⟨KP, hKP⟩ : ∃ x, k * P = x := ⟨_, rfl⟩
    rcases Nat.eq_zero_or_pos r with hr0 | hrpos
    · have hmval : m = KP := by
        rw [hm]
        have hNP : N * P = KP * 70 := by rw [← hKP, ← hNkr, hr0]; ring
        rw [hNP, rneDiv_mul _ _ (by norm_num)]
      have hdiv : (m + P - 1) / P = k := by
        rw [hmval]
        apply Nat.div_eq_of_lt_le
        · rw [hKP]
          omega
        · show KP + P - 1 < (k + 1) * P
          rw [show (k + 1) * P = KP + P from by rw [← hKP]; ring]
          omega
      rw [hdiv]
      have hceil : ⌈(N : ℚ) / 70⌉ = (k : ℤ) := by
        have hN70 : N = 70 * k := by omega
        have hfrac : ((70 * k : ℕ) : ℚ) / 70 = (k : ℚ) := by
          push_cast
          rw [mul_comm]
          exact mul_div_cancel_right₀ _ (by norm_num)
        rw [hN70, hfrac, Int.ceil_natCast]
      rw [hceil]
    · obtain ⟨RP, hRP⟩ : ∃ x, r * P = x := ⟨_, rfl⟩
      have hNPm : N * P = 70 * KP + RP := by rw [← hKP, ← hRP, ← hNkr]; ring
      have hPRP : P ≤ RP := by rw [← hRP]; exact Nat.le_mul_of_pos_left P hrpos
      have hRP69 : RP ≤ 69 * P := by
        rw [← hRP]
        exact Nat.mul_le_mul_right _ (by omega)
      have hlow : KP + 1 ≤ m := by
        rw [hm]
        apply rneDiv_ge
        · norm_num
        · rw [hNPm]
          omega
      have hhigh : m ≤ KP + P - 1 := by
        rw [hm]
        apply rneDiv_le
        · norm_num
        · rw [hNPm]
          omega
      have hdiv : (m + P - 1) / P = k + 1 := by
        apply Nat.div_eq_of_lt_le
        · show (k + 1) * P ≤ m + P - 1
          rw [show (k + 1) * P = KP + P from by rw [← hKP]; ring]
          omega
        · show m + P - 1 < (k + 1 + 1) * P
          rw [show (k + 1 + 1) * P = KP + P + P from by rw [← hKP]; ring]
          omega
      rw [hdiv]
      have hceil : ⌈(N : ℚ) / 70⌉ = (k : ℤ) + 1 := by
        rw [Int.ceil_eq_iff]
        constructor
        · rw [lt_div_iff₀ (by norm_num : (0 : ℚ) < 70)]
          have h70k : (70 * k : ℕ) < N := by omega
          have hq : ((70 * k : ℕ) : ℚ) < (N : ℚ) := by exact_mod_cast h70k
          push_cast at hq ⊢
          linarith
        · rw [div_le_iff₀ (by norm_num : (0 : ℚ) < 70)]
          have h70k1 : N ≤ 70 * (k + 1) := by omega
          have hq : (N : ℚ) ≤ ((70 * (k + 1) : ℕ) : ℚ) := by exact_mod_cast h70k1
          push_cast at hq ⊢
          linarith
      rw [hceil]
      exact congrArg some (by push_cast; ring)

/-- C7 (amended): on a response that passes `raise_for_status()` and
whose stripped result-count text parses as a total `N` of at most
`2 ^ 53` items, `get_page_count` returns exactly `⌈N / 70⌉` with 70
the fixed items-per-page constant.  Beyond `2 ^ 53` the rounding of
the float true division can lose the ceiling (see the
counterexample). -/
theorem pageCount_is_ceil_div (status : Nat) (t : String) (N : Nat)
    (hok : raiseForStatus status = false)
    (hparse : pyIntOfString (pyStripWs (pyStripChars t itemsChars)) = some (N : Int))
    (hbound : N ≤ 2 ^ 53) :
    get_page_count ⟨status, some t⟩ =
      Except.ok ⌈(N : ℚ) / (ITEMS_PER_PAGE : ℚ)⌉ := by
  rw [get_page_count]
  simp only [hok, Bool.false_eq_true, if_false]
  rw [hparse]
  show pageCountOfTotal (N : ℤ) = Except.ok ⌈(N : ℚ) / (ITEMS_PER_PAGE : ℚ)⌉
  unfold pageCountOfTotal
  rw [ceilFloatDiv70_exact N hbound]
  show Except.ok ⌈(N : ℚ) / 70⌉ = Except.ok ⌈(N : ℚ) / (ITEMS_PER_PAGE : ℚ)⌉
  have hcast : ((ITEMS_PER_PAGE : ℕ) : ℚ) = 70 := by norm_num [ITEMS_PER_PAGE]
  rw [hcast]

/-- Witness for C7: a reported total of 7559 (well inside the exact
range) yields 108 pages. -/
theorem pageCount_7559_witness :
    (7559 : ℕ) ≤ 2 ^ 53 ∧ get_page_count ⟨200, some "7559 items"⟩ = Except.ok 108 := by
  refine ⟨by norm_num, ?_⟩
  have h := pageCount_is_ceil_div 200 "7559 items" 7559 (by decide) (by decide)
    (by norm_num)
  rw [h]
  congr 1
  have hcast : ((ITEMS_PER_PAGE : ℕ) : ℚ) = 70 := by norm_num [ITEMS_PER_PAGE]
  rw [hcast, Int.ceil_eq_iff]
  constructor <;> norm_num

set_option maxRecDepth 4000 in
/-- C7 counterexample: at a reported total of 19703248369745921 the
true quotient exceeds `2 ^ 48`, where consecutive doubles are `1 / 16`
apart, so the float true division rounds the quotient
281474976710656.014… down to exactly `2 ^ 48` and the program returns
281474976710656 pages although the exact ceiling is 281474976710657. -/
theorem pageCount_float_ceil_counterexample :
    get_page_count ⟨200, some "19703248369745921 items"⟩ =
      Except.ok 281474976710656 ∧
    ⌈(19703248369745921 : ℚ) / 70⌉ = 281474976710657 := by
  constructor
  · rfl
  · rw [Int.ceil_eq_iff]
    constructor <;> norm_num

/-- C5 counterexample: a 300-status response is not 2xx, yet
`raise_for_status()` does not fire (it raises only for 400-599) and
`get_page_count` returns a page count instead of a `RequestError`. -/
theorem pageCount_status300_counterexample :
    raiseForStatus 300 = false ∧
    get_page_count ⟨300, some "70 items"⟩ = Except.ok 1 := by
  constructor
  · decide
  · rfl

/-- C5 (amended): `get_page_count` fails with the `HTTPError` exactly
when the status code is in 400-599 (not for every non-2xx status);
otherwise it fails with the `AttributeError` when the count element is
missing, with the `ValueError` when the stripped text is not an
integer, and only returns a page count when the text parses. -/
theorem pageCount_error_classification (resp : PageCountResponse) :
    (raiseForStatus resp.statusCode = true →
      get_page_count resp = Except.error (.requestError resp.statusCode)) ∧
    (raiseForStatus resp.statusCode = false → resp.countText = none →
      get_page_count resp = Except.error .countNotFound) ∧
    (∀ t, raiseForStatus resp.statusCode = false → resp.countText = some t →
      pyIntOfString (pyStripWs (pyStripChars t itemsChars)) = none →
      get_page_count resp = Except.error
        (.notAnInteger (pyStripWs (pyStripChars t itemsChars)))) ∧
    (∀ t n, raiseForStatus resp.statusCode = false → resp.countText = some t →
      pyIntOfString (pyStripWs (pyStripChars t itemsChars)) = some n →
      get_page_count resp = pageCountOfTotal n) := by
  refine ⟨?_, ?_, ?_, ?_⟩
  · intro h
    rw [get_page_count, h]
    rfl
  · intro h hn
    rw [get_page_count, hn]
    simp [h]
  · intro t h hsome hnone
    rw [get_page_count, hsome]
    simp only [h, Bool.false_eq_true, if_false]
    rw [hnone]
  · intro t n h hsome hparse
    rw [get_page_count, hsome]
    simp only [h, Bool.false_eq_true, if_false]
    rw [hparse]

/-- Witness for C5 at a concrete 500-status response and a concrete
non-integer count text. -/
theorem pageCount_error_classification_witness :
    get_page_count ⟨500, some "x"⟩ = Except.error (.requestError 500) ∧
    get_page_count ⟨200, some "no count here"⟩ =
      Except.error (.notAnInteger (pyStripWs (pyStripChars "no count here" itemsChars))) :=
  ⟨(pageCount_error_classification ⟨500, some "x"⟩).1 (by decide),
    (pageCount_error_classification ⟨200, some "no count here"⟩).2.2.1 "no count here"
      (by decide) rfl (by decide)⟩


/-! ### get_metadata (artvee_client.py): per-entry loop

The two per-entry parsers (`_parse_artist_metadata`,
`_parse_image_metadata`) extract fields from one
`div.product-element-bottom` node and may raise on malformed markup;
they enter the embedding as abstract functions with `none` standing for
a raised exception. -/

/-- The `for metadata_html in all_metadata_html` loop of
`get_metadata`: try both per-entry parsers inside `try`, append the
pair on success, and on any exception log and skip the entry
(`except Exception: pass`). -/
def collectMetadata (pA : α → Option β) (pI : α → Option γ) : List α → List (β × γ)
  | [] => []
  | e :: rest =>
      match pA e with
      | none => collectMetadata pA pI rest
      | some am =>
          match pI e with
          | none => collectMetadata pA pI rest
          | some im => (am, im) :: collectMetadata pA pI rest

/-- What `get_metadata` reads from the HTTP response: its status code
and the listing-page entries found in the body. -/
structure ListingResponse (α : Type) where
  statusCode : Nat
  entries : List α

/-- The `requests.HTTPError` raised by `raise_for_status()` in
`get_metadata`. -/
inductive ListingError where
  | httpError (status : Nat)
  deriving DecidableEq, Repr

/-- `ArtveeClient.get_metadata`: `raise_for_status()`, then collect one
metadata pair per entry that parses, skipping entries whose parsing
raises. -/
def get_metadata (pA : α → Option β) (pI : α → Option γ)
    (resp : ListingResponse α) : Except ListingError (List (β × γ)) :=
  if raiseForStatus resp.statusCode then
    Except.error (.httpError resp.statusCode)
  else
    Except.ok (collectMetadata pA pI resp.entries)

lemma collectMetadata_eq_filterMap (pA : α → Option β) (pI : α → Option γ)
    (entries : List α) :
    collectMetadata pA pI entries =
      entries.filterMap (fun e => (pA e).bind (fun a => (pI e).map (fun i => (a, i)))) := by
  induction entries with
  | nil => rfl
  | cons e rest ih =>
      cases hA : pA e with
      | none => simp [collectMetadata, hA, ih]
      | some a =>
          cases hI : pI e with
          | none => simp [collectMetadata, hA, hI, ih]
          | some i => simp [collectMetadata, hA, hI, ih]

/-- A parser stub that succeeds exactly on entry `0`. -/
def demoParseArtist : Nat → Option Nat := fun e => if e = 0 then some 10 else none

/-- A parser stub that succeeds exactly on entry `0`. -/
def demoParseImage : Nat → Option Nat := fun e => if e = 0 then some 20 else none

/-- C6: `get_metadata` yields one pair per entry on which both
per-entry parsers succeed and silently drops every entry whose parsing
raises, never propagating that exception: on a non-raising status the
result is always `ok`, its content is the `filterMap` of the parsers
over the entries, its length counts the entries that parse, and a page
with one well-formed and one malformed entry yields exactly one pair. -/
theorem metadata_skips_malformed_entries :
    (∀ (α β γ : Type) (pA : α → Option β) (pI : α → Option γ)
        (entries : List α),
      collectMetadata pA pI entries =
        entries.filterMap
          (fun e => (pA e).bind (fun a => (pI e).map (fun i => (a, i)))) ∧
      (collectMetadata pA pI entries).length =
        entries.countP (fun e => (pA e).isSome && (pI e).isSome)) ∧
    (∀ (α β γ : Type) (pA : α → Option β) (pI : α → Option γ)
        (resp : ListingResponse α),
      raiseForStatus resp.statusCode = false →
      get_metadata pA pI resp = Except.ok (collectMetadata pA pI resp.entries)) ∧
    get_metadata demoParseArtist demoParseImage ⟨200, [0, 1]⟩ =
      Except.ok [(10, 20)] := by
  refine ⟨?_, ?_, ?_⟩
  · intro α β γ pA pI entries
    refine ⟨collectMetadata_eq_filterMap pA pI entries, ?_⟩
    induction entries with
    | nil => rfl
    | cons e rest ih =>
        cases hA : pA e with
        | none => simp [collectMetadata, hA, List.countP_cons, ih]
        | some a =>
            cases hI : pI e with
            | none => simp [collectMetadata, hA, hI, List.countP_cons, ih]
            | some i => simp [collectMetadata, hA, hI, List.countP_cons, ih]
  · intro α β γ pA pI resp h
    rw [get_metadata]
    simp [h]
  · rfl

/-- Witness for C6 on a concrete listing page with one well-formed and
one malformed entry. -/
theorem metadata_skips_malformed_entries_witness :
    get_metadata demoParseArtist demoParseImage ⟨200, [0, 1]⟩ =
      Except.ok (collectMetadata demoParseArtist demoParseImage [0, 1]) ∧
    (collectMetadata demoParseArtist demoParseImage [0, 1]).length =
      ([0, 1] : List Nat).countP
        (fun e => (demoParseArtist e).isSome && (demoParseImage e).isSome) :=
  ⟨metadata_skips_malformed_entries.2.1 Nat Nat Nat demoParseArtist demoParseImage
      ⟨200, [0, 1]⟩ (by decide),
    (metadata_skips_malformed_entries.1 Nat Nat Nat demoParseArtist demoParseImage
      [0, 1]).2⟩


/-! ## File writer commands (writer/file_writer.py)

The filesystem is a partial map from paths to contents; `open` for
writing creates or truncates the file before anything is written, so a
later exception inside the `with` block still leaves the created or
truncated file behind.  The slug/path derivation and `json.dump` are
external collaborators (`path` is fixed at construction; the serializer
enters as a function). -/

/-- The filesystem: which file exists at each path, and its contents. -/
def FileSystem : Type := String → Option String

/-- Write `contents` at `path`. -/
def fsWrite (fs : FileSystem) (path : String) (contents : String) : FileSystem :=
  fun p => if p = path then some contents else fs p

/-- `os.remove(path)`: `none` models the `OSError` when the file does
not exist. -/
def fsRemove (fs : FileSystem) (path : String) : Option FileSystem :=
  if (fs path).isSome then some (fun p => if p = path then none else fs p) else none

/-- File modes the writer commands use: `create` is `"x"`/`"xb"`
(fail if the file exists), `overwrite` is `"w"`/`"wb"`. -/
inductive OpenMode where
  | create
  | overwrite
  deriving DecidableEq, Repr

/-- `open(path, mode)` for writing: creates or truncates the file
(empty until written); `none` models the `FileExistsError` of mode
`"x"` on an existing file. -/
def openForWrite (fs : FileSystem) (path : String) : OpenMode → Option FileSystem
  | .create => if (fs path).isSome then none else some (fsWrite fs path "")
  | .overwrite => some (fsWrite fs path "")

/-- Metadata attributes of an `Artwork` instance — its `__dict__`
without the `image` entry. -/
structure ArtworkFields where
  url : String
  resource : String
  title : String
  category : String
  artist : String
  date : String
  origin : Option String
  deriving DecidableEq, Repr

/-- An `Artwork` object as `WriteMetadataCommand` sees it: the metadata
attributes plus the `image` entry of its `__dict__`.  `image = none`
means the key is absent (a previous `vars(artwork).pop("image")`
removed it from the instance dictionary); `image = some v` means the
key is present with value `v` (itself `None` or the image data). -/
structure ArtworkObj where
  fields : ArtworkFields
  image : Option (Option String)
  deriving DecidableEq, Repr

/-- `WriteMetadataCommand` state fixed at construction: the destination
path (directory, separator, slug and `.json` extension), the
pretty-print options, and the open mode (`"w"` when
`overwrite_existing` else `"x"`). -/
structure WriteMetadataCommand where
  path : String
  indent : Option Nat
  sortKeys : Bool
  openOption : OpenMode

/-- `WriteMetadataCommand.execute()`: open the file (creating or
truncating it), obtain the artwork's attribute dict via `vars()`
without copying, `pop` the `"image"` key — mutating the artwork — and
dump the remaining metadata; any exception is caught and reported as
`False`.  `dump` stands for `json.dump` with this command's options. -/
def WriteMetadataCommand.execute (cmd : WriteMetadataCommand)
    (dump : ArtworkFields → String) (artwork : ArtworkObj) (fs : FileSystem) :
    Bool × ArtworkObj × FileSystem :=
  match openForWrite fs cmd.path cmd.openOption with
  | none => (false, artwork, fs)
  | some fs₁ =>
      match artwork.image with
      | none => (false, artwork, fs₁)
      | some _ =>
          let artwork₁ : ArtworkObj := { artwork with image := none }
          (true, artwork₁, fsWrite fs₁ cmd.path (dump artwork₁.fields))

/-- `WriteMetadataCommand.revert()`: delete the metadata file;
an `OSError` is caught and reported as `False`. -/
def WriteMetadataCommand.revert (cmd : WriteMetadataCommand) (fs : FileSystem) :
    Bool × FileSystem :=
  match fsRemove fs cmd.path with
  | none => (false, fs)
  | some fs₁ => (true, fs₁)

/-- `WriteImageCommand` state fixed at construction: the captured
`artwork.image` bytes, the destination path, and the open mode. -/
structure WriteImageCommand where
  image : Option String
  path : String
  openOption : OpenMode

/-- Python truthiness of the captured image value: `None` and empty
bytes are falsy. -/
def pyTruthy : Option String → Bool
  | none => false
  | some s => s != ""

/-- `WriteImageCommand.execute()`: report `False` without touching the
filesystem unless the captured image is truthy, else open and write the
bytes; a failing `open` is caught and reported as `False`. -/
def WriteImageCommand.execute (cmd : WriteImageCommand) (fs : FileSystem) :
    Bool × FileSystem :=
  if pyTruthy cmd.image then
    match openForWrite fs cmd.path cmd.openOption with
    | none => (false, fs)
    | some fs₁ => (true, fsWrite fs₁ cmd.path (cmd.image.getD ""))
  else (false, fs)

/-- `WriteImageCommand.revert()`: delete the image file; an `OSError`
is caught and reported as `False`. -/
def WriteImageCommand.revert (cmd : WriteImageCommand) (fs : FileSystem) :
    Bool × FileSystem :=
  match fsRemove fs cmd.path with
  | none => (false, fs)
  | some fs₁ => (true, fs₁)

/-- C4 (amended): a failing `WriteImageCommand.execute()` never changes
the filesystem; a failing `WriteMetadataCommand.execute()` leaves the
filesystem (and the artwork) unchanged provided the artwork's attribute
dict still holds its `image` key — as on any first execution.  (Without
that key — after a previous execute popped it — a failure can leave a
created or truncated file behind; see the counterexample.) -/
theorem write_commands_failure_frame :
    (∀ (cmd : WriteImageCommand) (fs fs₂ : FileSystem),
      cmd.execute fs = (false, fs₂) → fs₂ = fs) ∧
    (∀ (cmd : WriteMetadataCommand) (dump : ArtworkFields → String)
        (artwork : ArtworkObj) (fs : FileSystem) (a₂ : ArtworkObj)
        (fs₂ : FileSystem),
      artwork.image.isSome = true →
      cmd.execute dump artwork fs = (false, a₂, fs₂) → fs₂ = fs ∧ a₂ = artwork) := by
  constructor
  · intro cmd fs fs₂ h
    rw [WriteImageCommand.execute] at h
    cases ht : pyTruthy cmd.image with
    | false =>
        rw [ht] at h
        simp at h
        exact h.symm
    | true =>
        rw [ht] at h
        simp only [if_true] at h
        cases hOpen : openForWrite fs cmd.path cmd.openOption with
        | none =>
            rw [hOpen] at h
            simp at h
            exact h.symm
        | some fs₁ =>
            rw [hOpen] at h
            simp at h
  · intro cmd dump artwork fs a₂ fs₂ himg h
    rw [WriteMetadataCommand.execute] at h
    cases hOpen : openForWrite fs cmd.path cmd.openOption with
    | none =>
        rw [hOpen] at h
        simp at h
        exact ⟨h.2.symm, h.1.symm⟩
    | some fs₁ =>
        rw [hOpen] at h
        obtain ⟨v, hv⟩ := Option.isSome_iff_exists.1 himg
        rw [hv] at h
        simp at h

/-- A metadata command writing `a.json` in `"x"` mode. -/
def demoMetaCmd : WriteMetadataCommand := ⟨"a.json", none, false, OpenMode.create⟩

/-- An artwork object whose `image` key a previous `execute()` already
popped from the instance dictionary. -/
def poppedArtwork : ArtworkObj := ⟨⟨"u", "r", "t", "c", "a", "d", none⟩, none⟩

/-- The empty filesystem. -/
def emptyFs : FileSystem := fun _ => none

/-- C4 counterexample: on an artwork whose `image` key was popped by an
earlier `execute()` (the retry-after-rollback scenario), a failing
`WriteMetadataCommand.execute()` leaves a side effect: the destination
file did not exist before the call and exists — empty — afterwards. -/
theorem write_metadata_failure_leaves_file :
    (demoMetaCmd.execute (fun _ => "") poppedArtwork emptyFs).1 = false ∧
    emptyFs "a.json" = none ∧
    (demoMetaCmd.execute (fun _ => "") poppedArtwork emptyFs).2.2 "a.json" =
      some "" :=
  ⟨rfl, rfl, rfl⟩

/-- Witness for C4 at a concrete failing image write (existing file,
`"x"` mode) and a concrete failing metadata write on an artwork whose
`image` key is present. -/
theorem write_commands_failure_frame_witness :
    (WriteImageCommand.execute ⟨some "jpg", "a.jpg", OpenMode.create⟩
        (fsWrite emptyFs "a.jpg" "old")).2 = fsWrite emptyFs "a.jpg" "old" ∧
    (demoMetaCmd.execute (fun _ => "")
        ⟨⟨"u", "r", "t", "c", "a", "d", none⟩, some none⟩
        (fsWrite emptyFs "a.json" "old")).2.2 = fsWrite emptyFs "a.json" "old" :=
  ⟨write_commands_failure_frame.1 ⟨some "jpg", "a.jpg", OpenMode.create⟩
      (fsWrite emptyFs "a.jpg" "old") _ rfl,
    (write_commands_failure_frame.2 demoMetaCmd (fun _ => "")
      ⟨⟨"u", "r", "t", "c", "a", "d", none⟩, some none⟩
      (fsWrite emptyFs "a.json" "old")
      ⟨⟨"u", "r", "t", "c", "a", "d", none⟩, some none⟩
      (fsWrite emptyFs "a.json" "old") rfl rfl).1⟩

/-- C10: a successful `WriteMetadataCommand.execute()` mutates the
artwork it was constructed with: it reaches the attribute dict via
`vars()` without copying and pops the `"image"` key, so success implies
the key was present beforehand and the artwork afterwards no longer
carries its image field — the delivered item does not come out of the
metadata write unchanged. -/
theorem write_metadata_mutates_artwork (cmd : WriteMetadataCommand)
    (dump : ArtworkFields → String) (artwork : ArtworkObj) (fs : FileSystem)
    (a₂ : ArtworkObj) (fs₂ : FileSystem)
    (h : cmd.execute dump artwork fs = (true, a₂, fs₂)) :
    a₂.image = none ∧ (∃ v, artwork.image = some v) ∧ a₂ ≠ artwork := by
  rw [WriteMetadataCommand.execute] at h
  cases hOpen : openForWrite fs cmd.path cmd.openOption with
  | none =>
      rw [hOpen] at h
      simp at h
  | some fs₁ =>
      rw [hOpen] at h
      cases hImg : artwork.image with
      | none =>
          rw [hImg] at h
          simp at h
      | some v =>
          rw [hImg] at h
          simp only [Prod.mk.injEq, true_and] at h
          refine ⟨by rw [← h.1], ⟨v, by simp [hImg]⟩, ?_⟩
          intro hEq
          rw [← h.1] at hEq
          have h2 : ({ artwork with image := none } : ArtworkObj).image = artwork.image :=
            congrArg ArtworkObj.image hEq
          simp [hImg] at h2

/-- Witness for C10 at a concrete successful metadata write. -/
theorem write_metadata_mutates_artwork_witness :
    (⟨⟨"u", "r", "t", "c", "a", "d", none⟩, none⟩ : ArtworkObj).image = none ∧
    (∃ v, (⟨⟨"u", "r", "t", "c", "a", "d", none⟩, some (some "img")⟩ :
      ArtworkObj).image = some v) ∧
    (⟨⟨"u", "r", "t", "c", "a", "d", none⟩, none⟩ : ArtworkObj) ≠
      ⟨⟨"u", "r", "t", "c", "a", "d", none⟩, some (some "img")⟩ :=
  write_metadata_mutates_artwork demoMetaCmd (fun _ => "json")
    ⟨⟨"u", "r", "t", "c", "a", "d", none⟩, some (some "img")⟩ emptyFs
    ⟨⟨"u", "r", "t", "c", "a", "d", none⟩, none⟩
    (fsWrite (fsWrite emptyFs "a.json" "") "a.json" "json") rfl


/-! ## Scraper worker task (scraper.py)

`_worker_task` builds an `Artwork` from one metadata pair, fetches the
asset, and notifies listeners; `_invoke_listeners` iterates the
registered callbacks with no exception handling of its own.  Listeners
enter the embedding as functions returning `none` on normal return and
`some e` when they raise; the asset fetch arrives as its outcome. -/

/-- Attributes of an `ImageMetadata` record. -/
structure ImageMeta where
  sourceUrl : Option String
  width : Nat
  height : Nat
  fileSize : Rat
  fileSizeUnit : Option String
  deriving DecidableEq, Repr

/-- The `Image` object the worker builds from the metadata: raw bytes
absent until fetched, format tag defaulted. -/
structure ImageObj where
  meta : ImageMeta
  raw : Option String
  formatName : String
  deriving DecidableEq, Repr

/-- The `Artwork` one worker task assembles and hands to listeners. -/
structure WorkerArtwork where
  fields : ArtworkFields
  image : ImageObj
  deriving DecidableEq, Repr

/-- An exception inside the worker path: raised by the asset fetch, or
by the listener at the given registry position. -/
inductive WorkerExn where
  | fetchError (msg : String)
  | listenerError (idx : Nat)
  deriving DecidableEq, Repr

/-- A registered callback: invoked with the artwork and the optional
error; `none` models a normal return, `some e` a raised exception. -/
def Listener : Type := WorkerArtwork → Option WorkerExn → Option WorkerExn

/-- One delivered notification: which listener (registry position)
received which artwork and error value. -/
structure Delivery where
  listenerIdx : Nat
  artwork : WorkerArtwork
  thrown : Option WorkerExn
  deriving DecidableEq, Repr

/-- The `for listener in self._listeners.keys()` loop of
`_invoke_listeners`, from registry position `i` on: listeners are
invoked in order and a raising listener stops the iteration, its
exception propagating — the loop body has no try/except. -/
def invokeFrom (a : WorkerArtwork) (thrown : Option WorkerExn) :
    Nat → List Listener → List Delivery × Option WorkerExn
  | _, [] => ([], none)
  | i, l :: rest =>
      match l a thrown with
      | none =>
          let r := invokeFrom a thrown (i + 1) rest
          (⟨i, a, thrown⟩ :: r.1, r.2)
      | some e => ([⟨i, a, thrown⟩], some e)

/-- `ArtveeScraper._invoke_listeners(artwork, thrown)`. -/
def invokeListeners (ls : List Listener) (a : WorkerArtwork)
    (thrown : Option WorkerExn) : List Delivery × Option WorkerExn :=
  invokeFrom a thrown 0 ls

/-- `ArtveeScraper._worker_task`: assemble the artwork (raw bytes
absent), then inside one `try` block fetch the image, attach the bytes
and notify listeners; the `except` arm notifies listeners with the
artwork and whatever exception the `try` body raised — whether it came
from the fetch or from a listener during the success-path notification.
The second component of the result is the exception escaping the task
into the worker pool. -/
def workerTask (fetchResult : Except WorkerExn String) (ls : List Listener)
    (am : ArtworkFields) (im : ImageMeta) : List Delivery × Option WorkerExn :=
  let artwork : WorkerArtwork := ⟨am, ⟨im, none, "jpg"⟩⟩
  match fetchResult with
  | .ok raw =>
      let artwork₁ : WorkerArtwork := ⟨am, ⟨im, some raw, "jpg"⟩⟩
      let r := invokeListeners ls artwork₁ none
      match r.2 with
      | none => (r.1, none)
      | some thrown =>
          let r₂ := invokeListeners ls artwork₁ (some thrown)
          (r.1 ++ r₂.1, r₂.2)
  | .error thrown =>
      let r := invokeListeners ls artwork (some thrown)
      (r.1, r.2)

/-- Demo metadata for one worker task. -/
def amDemo : ArtworkFields := ⟨"u", "r", "t", "c", "a", "d", none⟩

/-- Demo image metadata for one worker task. -/
def imDemo : ImageMeta := ⟨some "src", 10, 20, 0, none⟩

/-- A listener whose callback raises on every notification. -/
def boomListener : Listener := fun _ _ => some (.listenerError 0)

/-- A listener whose callback always returns normally. -/
def quietListener : Listener := fun _ _ => none

/-- C2 evaluated at the failing input: with a single raising listener,
a failed fetch lets the listener's exception escape `_worker_task` into
the pool, and a successful fetch notifies the listener twice — the
second time through the catch-all `except` arm, with the fully
populated artwork and the listener's own exception — before escaping as
well.  (With a non-raising listener the intended behaviour holds:
exactly one notification, fully populated item with no error on
success, metadata-only item with the fetch exception on failure, and
nothing escapes.) -/
theorem worker_listener_exception_escapes :
    (workerTask (Except.error (.fetchError "boom")) [boomListener] amDemo imDemo).2 =
      some (WorkerExn.listenerError 0) ∧
    (workerTask (Except.ok "raw") [boomListener] amDemo imDemo).1 =
      [⟨0, ⟨amDemo, ⟨imDemo, some "raw", "jpg"⟩⟩, none⟩,
        ⟨0, ⟨amDemo, ⟨imDemo, some "raw", "jpg"⟩⟩, some (.listenerError 0)⟩] ∧
    (workerTask (Except.ok "raw") [boomListener] amDemo imDemo).2 =
      some (WorkerExn.listenerError 0) ∧
    workerTask (Except.ok "raw") [quietListener] amDemo imDemo =
      ([⟨0, ⟨amDemo, ⟨imDemo, some "raw", "jpg"⟩⟩, none⟩], none) ∧
    workerTask (Except.error (.fetchError "boom")) [quietListener] amDemo imDemo =
      ([⟨0, ⟨amDemo, ⟨imDemo, none, "jpg"⟩⟩,
        some (.fetchError "boom")⟩], none) :=
  ⟨rfl, rfl, rfl, rfl, rfl⟩


end ArtveeVerify
